import Mathlib

/-!
# Verification of the chat edge-instance core

Shallow embedding of the Go sources of `rohitkeshwani07/chat`:

* `backend/internal/buffer/buffer.go` — the per-message chunk reorder buffer
  (`Manager.AddChunk`, `GetNextChunks`, `FinalizeMessage`, `GetState`, `cleanup`);
* `backend/internal/sse/manager.go` — the in-memory SSE stream registry
  (`Manager.AddConnection`, `RemoveConnection`, counts);
* the HTTP chat submit handler (`Handler.HandleChat`);
* the Redis session registry's `GetActivePods` member-string parsing.

Go maps are embedded as association lists (`List (key × value)`), looked up with
`List.lookup` (first match) and updated with `updateEntry` (replace first match,
append when absent), which matches observable Go map behaviour because keys are
unique by construction.  `time.Time` values are embedded as abstract `Nat`
instants threaded explicitly; durations are `Nat`.  Go `int` chunk ids are
embedded as `Nat` (the data model guarantees sequences are ≥ 0).
-/

namespace Chat

/-- Association-list update mirroring Go map assignment `m[k] = v`:
replaces the first entry with the given key, appends when the key is absent. -/
def updateEntry {β : Type} (l : List (String × β)) (k : String) (v : β) :
    List (String × β) :=
  match l with
  | [] => [(k, v)]
  | e :: es => if e.1 = k then (k, v) :: es else e :: updateEntry es k v

/-- Association-list deletion mirroring Go `delete(m, k)` (keys are unique by
construction, so removing every entry with the key matches Go). -/
def deleteEntry {β : Type} (l : List (String × β)) (k : String) :
    List (String × β) :=
  l.filter (fun e => !(e.1 == k))

/-- A value of the open-ended JSON metadata bag (`map[string]interface{}`).
`num q` stands for a JSON number decoded to Go `float64`; we record the Go
truncation `int(q)` result directly as an `Int`. -/
inductive MetaVal : Type where
  | num (n : Int)
  | str (s : String)
  | boolean (b : Bool)
  deriving DecidableEq, Repr

/-- The metadata bag `map[string]interface{}` of a fragment. -/
abbrev Metadata := List (String × MetaVal)

/-- `models.ResponseChunk`: one fragment of a streamed reply. -/
structure ResponseChunk : Type where
  sessionID : String
  messageID : String
  chunkID   : Nat
  chunk     : String
  chunkType : String
  isFinal   : Bool
  metadata  : Option Metadata
  deriving DecidableEq, Repr

/-- `buffer.ChunkBuffer`: reorder state of a single message.
`chunks` embeds the Go map `map[int]*models.ResponseChunk`. -/
structure ChunkBuffer : Type where
  sessionID    : String
  messageID    : String
  chunks       : List (Nat × ResponseChunk)
  maxChunkID   : Nat
  nextToSend   : Nat
  isFinal      : Bool
  finalChunkID : Nat
  createdAt    : Nat
  updatedAt    : Nat
  deriving DecidableEq, Repr

/-- `buffer.Manager`: all active chunk buffers of one pod, with its
configuration.  `missingChunkTimeout` is stored by `NewManager` exactly as in
the source (where no method ever reads it). -/
structure Manager : Type where
  buffers             : List (String × ChunkBuffer)
  maxBuffersPerPod    : Nat
  maxChunksPerBuffer  : Nat
  maxBufferAge        : Nat
  cleanupInterval     : Nat
  missingChunkTimeout : Nat
  deriving DecidableEq, Repr

/-- `buffer.NewManager`. -/
def Manager.new (maxBuffers maxChunks maxAge cleanupInterval missingChunkTimeout : Nat) :
    Manager :=
  { buffers := []
    maxBuffersPerPod := maxBuffers
    maxChunksPerBuffer := maxChunks
    maxBufferAge := maxAge
    cleanupInterval := cleanupInterval
    missingChunkTimeout := missingChunkTimeout }

/-- The errors `AddChunk`/`GetNextChunks`/`FinalizeMessage` can return. -/
inductive BufError : Type where
  | bufferLimit
  | chunkLimit
  | notFound
  | notFinalized
  | missingChunk (i : Nat)
  deriving DecidableEq, Repr

/-- `Manager.AddChunk`, with `now` the abstract current instant.
The Go code inserts a freshly created buffer into the map before the chunk-cap
and duplicate checks, so the buffer (possibly still empty) stays registered on
those paths; `updateEntry` reproduces that.  On a duplicate chunk id the Go
code returns `nil` without mutating state whether or not the payload matches
(differing payload only changes which branch returns). -/
def Manager.addChunk (m : Manager) (now : Nat) (c : ResponseChunk) :
    Manager × Option BufError :=
  if m.maxBuffersPerPod ≤ m.buffers.length then
    (m, some .bufferLimit)
  else
    let buffer : ChunkBuffer :=
      match m.buffers.lookup c.messageID with
      | some b => b
      | none =>
        { sessionID := c.sessionID
          messageID := c.messageID
          chunks := []
          maxChunkID := 0
          nextToSend := 0
          isFinal := false
          finalChunkID := 0
          createdAt := now
          updatedAt := 0 }
    if m.maxChunksPerBuffer ≤ buffer.chunks.length then
      ({ m with buffers := updateEntry m.buffers c.messageID buffer }, some .chunkLimit)
    else
      match buffer.chunks.lookup c.chunkID with
      | some _ =>
        ({ m with buffers := updateEntry m.buffers c.messageID buffer }, none)
      | none =>
        let b : ChunkBuffer :=
          { buffer with
            chunks := (c.chunkID, c) :: buffer.chunks
            updatedAt := now
            maxChunkID := if buffer.maxChunkID < c.chunkID then c.chunkID else buffer.maxChunkID
            isFinal := buffer.isFinal || c.isFinal
            finalChunkID := if c.isFinal then c.chunkID else buffer.finalChunkID }
        ({ m with buffers := updateEntry m.buffers c.messageID b }, none)

/-- The `for` loop of `GetNextChunks`: collect consecutive chunks starting at
`next`, stopping at the first gap or right after a final chunk.  The Go loop
terminates because the map is finite; the `fuel` argument makes that explicit
(the caller passes `chunks.length + 1`, which is always enough). -/
def collectChunks (chunks : List (Nat × ResponseChunk)) :
    Nat → Nat → List ResponseChunk × Nat
  | next, 0 => ([], next)
  | next, fuel + 1 =>
    match chunks.lookup next with
    | none => ([], next)
    | some c =>
      if c.isFinal then
        ([c], next + 1)
      else
        let r := collectChunks chunks (next + 1) fuel
        (c :: r.1, r.2)

/-- `Manager.GetNextChunks`.  Returns the updated manager together with
`some (chunksToSend, isComplete)`, or `none` for the buffer-not-found error. -/
def Manager.getNextChunks (m : Manager) (messageID : String) :
    Manager × Option (List ResponseChunk × Bool) :=
  match m.buffers.lookup messageID with
  | none => (m, none)
  | some buffer =>
    let r := collectChunks buffer.chunks buffer.nextToSend (buffer.chunks.length + 1)
    let b : ChunkBuffer := { buffer with nextToSend := r.2 }
    let isComplete : Bool := b.isFinal && decide (b.finalChunkID < b.nextToSend)
    ({ m with buffers := updateEntry m.buffers messageID b }, some (r.1, isComplete))

/-- `models.Message`: the assembled reply handed to persistence. -/
structure Message : Type where
  messageID  : String
  sessionID  : String
  role       : String
  content    : String
  tokenCount : Int
  metadata   : Option Metadata
  createdAt  : Nat
  deriving DecidableEq, Repr

/-- Accumulator of the reassembly loop in `FinalizeMessage`
(`fullContent`, `totalTokens`, `metadata`). -/
structure FinState : Type where
  content     : String
  totalTokens : Int
  metadata    : Option Metadata
  deriving DecidableEq, Repr

/-- One iteration of the reassembly loop of `FinalizeMessage` at index `i`
(the loop runs after the density check, so the lookup always succeeds there;
a missing index is a no-op). -/
def finStep (chunks : List (Nat × ResponseChunk)) (st : FinState) (i : Nat) : FinState :=
  match chunks.lookup i with
  | none => st
  | some c =>
    let st1 : FinState :=
      if c.chunkType = "content" then { st with content := st.content ++ c.chunk } else st
    if c.isFinal then
      match c.metadata with
      | some md =>
        { st1 with
          metadata := some md
          totalTokens :=
            match md.lookup "tokens_used" with
            | some (MetaVal.num t) => t
            | _ => st1.totalTokens }
      | none => st1
    else st1

/-- `Manager.FinalizeMessage`, with `now` the abstract current instant.
The buffer is deleted from the manager before any check, exactly as in Go. -/
def Manager.finalizeMessage (m : Manager) (messageID : String) (now : Nat) :
    Manager × Except BufError Message :=
  match m.buffers.lookup messageID with
  | none => (m, .error .notFound)
  | some buffer =>
    let m1 : Manager := { m with buffers := deleteEntry m.buffers messageID }
    if buffer.isFinal = false then
      (m1, .error .notFinalized)
    else
      match (List.range (buffer.finalChunkID + 1)).find?
          (fun i => (buffer.chunks.lookup i).isNone) with
      | some i => (m1, .error (.missingChunk i))
      | none =>
        let st : FinState :=
          (List.range (buffer.finalChunkID + 1)).foldl (finStep buffer.chunks)
            { content := "", totalTokens := 0, metadata := none }
        (m1, .ok
          { messageID := messageID
            sessionID := buffer.sessionID
            role := "assistant"
            content := st.content
            tokenCount := st.totalTokens
            metadata := st.metadata
            createdAt := now })

/-- `models.BufferState`. -/
structure BufferState : Type where
  totalExpected : Nat
  totalReceived : Nat
  totalSent     : Nat
  missingChunks : List Nat
  isComplete    : Bool
  deriving DecidableEq, Repr

/-- `Manager.GetState` (read-only: it takes the buffer lock in read mode and
mutates nothing, which the embedding reflects by not returning a manager). -/
def Manager.getState (m : Manager) (messageID : String) : Option BufferState :=
  match m.buffers.lookup messageID with
  | none => none
  | some buffer =>
    let base : BufferState :=
      { totalExpected := 0
        totalReceived := buffer.chunks.length
        totalSent := buffer.nextToSend
        missingChunks := []
        isComplete := false }
    if buffer.isFinal then
      let missing :=
        (List.range (buffer.finalChunkID + 1)).filter
          (fun i => (buffer.chunks.lookup i).isNone)
      some { base with
        totalExpected := buffer.finalChunkID + 1
        missingChunks := missing
        isComplete := missing.length = 0 }
    else
      some base

/-- `Manager.cleanup`, with `now` the abstract current instant.  A buffer is
removed iff it is stale (`UpdatedAt` before `now - maxBufferAge`) or has its
final chunk; `missingChunkTimeout` is not consulted (it never is in the
source).  `updatedAt < now - maxBufferAge` over Go times is rendered as
`updatedAt + maxBufferAge < now` over `Nat` instants. -/
def Manager.cleanup (m : Manager) (now : Nat) : Manager :=
  { m with
    buffers := m.buffers.filter
      (fun kv => !(decide (kv.2.updatedAt + m.maxBufferAge < now) || kv.2.isFinal)) }

/-- `Manager.GetBufferCount`. -/
def Manager.getBufferCount (m : Manager) : Nat :=
  m.buffers.length

/-- The ingest loop's use of `AddChunk`: feed fragments one by one, logging and
dropping any rejection (the returned error is discarded). -/
def ingestAll (m : Manager) (now : Nat) (l : List ResponseChunk) : Manager :=
  l.foldl (fun acc c => (acc.addChunk now c).1) m

/-! ## SSE connection manager (`backend/internal/sse/manager.go`) -/

/-- `sse.Connection`, restricted to the pure identification fields the two
indices are keyed on (the transport handle, timestamps and channel play no
role in the indexing operations). -/
structure Connection : Type where
  id        : String
  sessionID : String
  userID    : String
  deriving DecidableEq, Repr

/-- `sse.Manager`: the two in-memory indices.
`connections` embeds `map[string]*Connection`, `sessions` embeds
`map[string][]*Connection`. -/
structure SSEManager : Type where
  connections : List (String × Connection)
  sessions    : List (String × List Connection)
  deriving DecidableEq, Repr

/-- `sse.NewManager`. -/
def SSEManager.new : SSEManager :=
  { connections := [], sessions := [] }

/-- `sse.Manager.AddConnection` after the transport checks: the freshly built
connection record (its `ID` a fresh UUID in Go, here a parameter) is inserted
into both indices; the sessions slice grows by `append`. -/
def SSEManager.addConnection (m : SSEManager) (conn : Connection) : SSEManager :=
  { connections := updateEntry m.connections conn.id conn
    sessions :=
      updateEntry m.sessions conn.sessionID
        ((m.sessions.lookup conn.sessionID).getD [] ++ [conn]) }

/-- The removal loop of `RemoveConnection`: delete the first slice element
whose `ID` matches, then `break`. -/
def removeFirstByID : List Connection → String → List Connection
  | [], _ => []
  | c :: cs, connectionID =>
    if c.id = connectionID then cs else c :: removeFirstByID cs connectionID

/-- `sse.Manager.RemoveConnection`: unknown ids are ignored; otherwise the
record is deleted from `connections`, its first occurrence is removed from its
session's slice, and an emptied slice's key is deleted. -/
def SSEManager.removeConnection (m : SSEManager) (connectionID : String) : SSEManager :=
  match m.connections.lookup connectionID with
  | none => m
  | some conn =>
    let connections := deleteEntry m.connections connectionID
    match m.sessions.lookup conn.sessionID with
    | none => { connections := connections, sessions := m.sessions }
    | some conns =>
      let conns1 := removeFirstByID conns connectionID
      if conns1.length = 0 then
        { connections := connections
          sessions := deleteEntry m.sessions conn.sessionID }
      else
        { connections := connections
          sessions := updateEntry m.sessions conn.sessionID conns1 }

/-- `sse.Manager.HasActiveConnections`: `len(m.sessions[sessionID]) > 0`
(a missing key reads as the empty slice in Go). -/
def SSEManager.hasActiveConnections (m : SSEManager) (sessionID : String) : Bool :=
  decide (0 < ((m.sessions.lookup sessionID).getD []).length)

/-- `sse.Manager.GetConnectionCount`. -/
def SSEManager.getConnectionCount (m : SSEManager) : Nat :=
  m.connections.length

/-- `sse.Manager.GetSessionCount`. -/
def SSEManager.getSessionCount (m : SSEManager) : Nat :=
  m.sessions.length

/-! ## HTTP submit handler (`Handler.HandleChat`) -/

/-- `models.ChatRequest`, its validated fields. -/
structure ChatRequest : Type where
  sessionID : String
  userID    : String
  message   : String
  deriving DecidableEq, Repr

/-- Outcome of `HandleChat`: the HTTP status written and the number of times
`PublishWorkflowRequest` was invoked.  `body = none` stands for a request body
that fails to decode; `publishOk` tells whether the single bus publish
succeeds.  Statuses follow `net/http`: 405 `StatusMethodNotAllowed`,
400 `StatusBadRequest`, 500 `StatusInternalServerError`, 202 `StatusAccepted`. -/
def handleChat (method : String) (body : Option ChatRequest) (publishOk : Bool) :
    Nat × Nat :=
  if method ≠ "POST" then (405, 0)
  else
    match body with
    | none => (400, 0)
    | some req =>
      if req.sessionID = "" ∨ req.message = "" ∨ req.userID = "" then (400, 0)
      else if publishOk then (202, 1) else (500, 1)

/-! ## Session registry member parsing (`SessionRegistry.GetActivePods`) -/

/-- Go string slicing `s[low:]`: `none` models the runtime panic
`slice bounds out of range` when `low < 0` or `low > len(s)`. -/
def goSliceFrom (s : List Char) (low : Int) : Option (List Char) :=
  if 0 ≤ low ∧ low ≤ (s.length : Int) then some (s.drop low.toNat) else none

/-- Go string slicing `s[:high]`: `none` models the runtime panic when
`high < 0` or `high > len(s)`. -/
def goSliceTo (s : List Char) (high : Int) : Option (List Char) :=
  if 0 ≤ high ∧ high ≤ (s.length : Int) then some (s.take high.toNat) else none

/-- The pod-id extraction of `GetActivePods`, verbatim:
`member[:len(member)-len(member[len(member)-36:])-1]` (the comment in the
source says "Assuming UUID connection ID"). -/
def extractPodID (member : List Char) : Option (List Char) :=
  match goSliceFrom member ((member.length : Int) - 36) with
  | none => none
  | some tail36 =>
    goSliceTo member ((member.length : Int) - (tail36.length : Int) - 1)

/-- The member loop of `GetActivePods` over the set members returned by
`SMembers`: each extracted pod id with positive length joins the result set
(`podMap` dedups; list order stands in for Go's map iteration).  `none` models
a panic while processing some member. -/
def getActivePods (members : List (List Char)) : Option (List (List Char)) :=
  match members.mapM extractPodID with
  | none => none
  | some podIDs => some ((podIDs.filter (fun p => 0 < p.length)).dedup)

/-- Modelled from the spec: the corrected parse of a `<instance_id>:<stream_id>`
membership string, "splitting on the last `:`" — everything before the last
colon (`none` when the member has no colon). -/
def splitInstanceID (member : List Char) : Option (List Char) :=
  let idx := member.reverse.indexOf ':'
  if idx < member.length then
    some (member.take (member.length - 1 - idx))
  else
    none

/-! ## Spec-side formulas and invariants -/

/-- The assembled text the spec promises from `FinalizeMessage`: the payloads
of the `content`-typed fragments, concatenated in ascending sequence order
over `[0, final_seq]`. -/
def specContent (b : ChunkBuffer) : String :=
  String.join ((List.range (b.finalChunkID + 1)).filterMap
    (fun i => (b.chunks.lookup i).bind
      (fun c => if c.chunkType = "content" then some c.chunk else none)))

/-- The metadata bag of the fragment stored at `final_seq`. -/
def specFinalMeta (b : ChunkBuffer) : Option Metadata :=
  (b.chunks.lookup b.finalChunkID).bind (fun c => c.metadata)

/-- The token count the spec promises: the numeric `tokens_used` field of the
final fragment's bag when present, `0` otherwise. -/
def specTokens (b : ChunkBuffer) : Int :=
  match specFinalMeta b with
  | some md =>
    match md.lookup "tokens_used" with
    | some (MetaVal.num t) => t
    | _ => 0
  | none => 0

/-- The part of the spec's reorder-buffer invariant that the code maintains:
`next_to_emit ≤ max_seen + 1`, with the auxiliary fact that every stored
sequence is at most `max_seen`. -/
def ChunkBuffer.SeqWF (b : ChunkBuffer) : Prop :=
  b.nextToSend ≤ b.maxChunkID + 1 ∧ ∀ kv ∈ b.chunks, kv.1 ≤ b.maxChunkID

/-- `SeqWF` for every live buffer of a manager. -/
def Manager.SeqWF (m : Manager) : Prop :=
  ∀ kv ∈ m.buffers, ChunkBuffer.SeqWF kv.2

/-- The canonical buffer produced by ingesting, into a fresh manager at
instant `now`, the fragments `f i` for the sequence ids listed in `done`
(most recent first). -/
def permBuf (sid mid : String) (f : Nat → ResponseChunk) (now : Nat)
    (done : List Nat) : ChunkBuffer :=
  { sessionID := sid
    messageID := mid
    chunks := done.map (fun i => (i, f i))
    maxChunkID := done.foldr (fun i acc => if acc < i then i else acc) 0
    nextToSend := 0
    isFinal := done.foldr (fun i acc => acc || (f i).isFinal) false
    finalChunkID := done.foldr (fun i acc => if (f i).isFinal then i else acc) 0
    createdAt := now
    updatedAt := now }

/-- The canonical manager state after ingesting exactly the sequence ids in
`done` (most recent first) of one message into a fresh manager. -/
def permMgr (B C A I T : Nat) (sid mid : String) (f : Nat → ResponseChunk)
    (now : Nat) (done : List Nat) : Manager :=
  { Manager.new B C A I T with
    buffers := if done.isEmpty then [] else [(mid, permBuf sid mid f now done)] }

/-- The SSE-manager states reachable by `AddConnection` / `RemoveConnection`
from the fresh manager.  `AddConnection` only ever runs with a freshly
generated UUID, rendered here as the requirement that the connection id is not
currently registered. -/
inductive SSEReachable : SSEManager → Prop where
  | empty : SSEReachable SSEManager.new
  | add {m : SSEManager} (conn : Connection) :
      SSEReachable m → m.connections.lookup conn.id = none →
      SSEReachable (m.addConnection conn)
  | remove {m : SSEManager} (connectionID : String) :
      SSEReachable m → SSEReachable (m.removeConnection connectionID)

/-- Internal well-formedness of the two SSE indices, the induction invariant
behind the C10 statement. -/
structure SSEInv (m : SSEManager) : Prop where
  connKeys : ∀ kv ∈ m.connections, kv.2.id = kv.1
  connNodup : (m.connections.map Prod.fst).Nodup
  sessNodup : (m.sessions.map Prod.fst).Nodup
  sliceNE : ∀ kv ∈ m.sessions, kv.2 ≠ []
  sliceSess : ∀ kv ∈ m.sessions, ∀ c ∈ kv.2, c.sessionID = kv.1
  flatPerm : ((m.sessions.map Prod.snd).flatten).Perm (m.connections.map Prod.snd)

/-! ## Concrete sample data for witnesses and counterexamples -/

/-- A sample content fragment of message `mid`. -/
def sampleChunk (mid : String) (i : Nat) (payload : String) (fin : Bool) :
    ResponseChunk :=
  { sessionID := "s1"
    messageID := mid
    chunkID := i
    chunk := payload
    chunkType := "content"
    isFinal := fin
    metadata := none }

/-- The fragments "a", "b", "c"(final) of one sample message, as a function of
the sequence id. -/
def sampleMsg : Nat → ResponseChunk
  | 0 => sampleChunk "m" 0 "a" false
  | 1 => sampleChunk "m" 1 "b" false
  | _ => sampleChunk "m" 2 "c" true

/-- A manager holding the sample message's fragments 0 and 2 (final), with
fragment 1 still missing. -/
def gapMgr : Manager :=
  ingestAll (Manager.new 10 10 300 30 30) 100 [sampleMsg 0, sampleMsg 2]

/-- A capacity-one manager already holding a buffer for message `"m"` with
fragment 0 stored. -/
def fullMgr : Manager :=
  (Manager.new 1 10 300 30 30).addChunk 100 (sampleMsg 0) |>.1

/-- A sample SSE connection. -/
def sampleConn (id sid : String) : Connection :=
  { id := id, sessionID := sid, userID := "u1" }

/-- A manager holding the complete sample message (fragments 0, 1, 2 with the
final at 2), ingested in order. -/
def seqMgr : Manager :=
  ingestAll (Manager.new 10 10 300 30 30) 100 [sampleMsg 0, sampleMsg 1, sampleMsg 2]

/-- The buffer held by `seqMgr` for message `"m"`, written out. -/
def seqBuf : ChunkBuffer :=
  { sessionID := "s1"
    messageID := "m"
    chunks := [(2, sampleChunk "m" 2 "c" true), (1, sampleChunk "m" 1 "b" false),
      (0, sampleChunk "m" 0 "a" false)]
    maxChunkID := 2
    nextToSend := 0
    isFinal := true
    finalChunkID := 2
    createdAt := 100
    updatedAt := 100 }

/-- A manager on which the final fragment (sequence 0) arrived before a later
non-final fragment (sequence 1), and the final fragment was then emitted by
`GetNextChunks`. -/
def invMgr : Manager :=
  ((ingestAll (Manager.new 10 10 300 30 30) 100
    [sampleChunk "m" 0 "z" true, sampleChunk "m" 1 "y" false]).getNextChunks "m").1

/-- The buffer held by `gapMgr` for message `"m"`, written out. -/
def gapBuf : ChunkBuffer :=
  { sessionID := "s1"
    messageID := "m"
    chunks := [(2, sampleChunk "m" 2 "c" true), (0, sampleChunk "m" 0 "a" false)]
    maxChunkID := 2
    nextToSend := 0
    isFinal := true
    finalChunkID := 2
    createdAt := 100
    updatedAt := 100 }

/-! ## Association-list lemmas -/

theorem lookup_updateEntry_self {β : Type} (l : List (String × β)) (k : String) (v : β) :
    (updateEntry l k v).lookup k = some v := by
  induction l with
  | nil => simp [updateEntry, List.lookup]
  | cons e es ih =>
    by_cases h : e.1 = k
    · simp [updateEntry, h, List.lookup]
    · simp only [updateEntry, if_neg h, List.lookup]
      have : (k == e.1) = false := by
        simp [beq_iff_eq]
        exact fun hk => h hk.symm
      simp [this, ih]

theorem lookup_updateEntry_ne {β : Type} (l : List (String × β)) (k k' : String) (v : β)
    (h : k' ≠ k) : (updateEntry l k v).lookup k' = l.lookup k' := by
  induction l with
  | nil =>
    have h1 : (k' == k) = false := by simp [beq_iff_eq, h]
    simp [updateEntry, List.lookup, h1]
  | cons e es ih =>
    by_cases he : e.1 = k
    · simp only [updateEntry, if_pos he, List.lookup]
      have h1 : (k' == k) = false := by simp [beq_iff_eq, h]
      have h2 : (k' == e.1) = false := by simp [beq_iff_eq, he, h]
      simp [h1, h2]
    · simp only [updateEntry, if_neg he, List.lookup]
      cases hk : (k' == e.1) <;> simp [ih]

theorem updateEntry_self_eq {β : Type} (l : List (String × β)) (k : String) (v : β)
    (h : l.lookup k = some v) : updateEntry l k v = l := by
  induction l with
  | nil => simp [List.lookup] at h
  | cons e es ih =>
    rw [List.lookup] at h
    by_cases he : k = e.1
    · have : (k == e.1) = true := by simp [beq_iff_eq, he]
      rw [this] at h
      simp only [updateEntry, if_pos he.symm]
      cases e with
      | mk k0 v0 =>
        simp at he
        simp at h
        simp [he, h]
    · have : (k == e.1) = false := by simp [beq_iff_eq, he]
      rw [this] at h
      simp only [updateEntry]
      rw [if_neg (fun hh => he hh.symm), ih h]

theorem lookup_deleteEntry_self {β : Type} (l : List (String × β)) (k : String) :
    (deleteEntry l k).lookup k = none := by
  induction l with
  | nil => simp [deleteEntry, List.lookup]
  | cons e es ih =>
    by_cases he : e.1 = k
    · simpa [deleteEntry, he] using ih
    · have h1 : (e.1 == k) = false := by simp [beq_iff_eq, he]
      have h2 : (k == e.1) = false := by
        simp [beq_iff_eq]
        exact fun hk => he hk.symm
      simp only [deleteEntry, List.filter, h1, Bool.not_false, List.lookup, h2]
      simpa [deleteEntry] using ih

theorem mem_updateEntry {β : Type} {l : List (String × β)} {k : String} {v : β}
    {kv : String × β} (h : kv ∈ updateEntry l k v) : kv = (k, v) ∨ kv ∈ l := by
  induction l with
  | nil => simpa [updateEntry] using h
  | cons e es ih =>
    by_cases he : e.1 = k
    · simp only [updateEntry, if_pos he, List.mem_cons] at h
      rcases h with h | h
      · exact Or.inl h
      · exact Or.inr (List.mem_cons_of_mem _ h)
    · simp only [updateEntry, if_neg he, List.mem_cons] at h
      rcases h with h | h
      · exact Or.inr (by rw [h]; exact List.mem_cons_self e es)
      · rcases ih h with h1 | h1
        · exact Or.inl h1
        · exact Or.inr (List.mem_cons_of_mem _ h1)

theorem mem_of_lookup {α β : Type} [BEq α] [LawfulBEq α] {l : List (α × β)} {k : α} {v : β}
    (h : l.lookup k = some v) : (k, v) ∈ l := by
  induction l with
  | nil => simp [List.lookup] at h
  | cons e es ih =>
    obtain ⟨k0, v0⟩ := e
    by_cases he : k = k0
    · subst he
      simp only [List.lookup, beq_self_eq_true] at h
      simp only [Option.some.injEq] at h
      subst h
      exact List.mem_cons_self _ _
    · have hbeq : (k == k0) = false := by simp [beq_iff_eq, he]
      simp only [List.lookup, hbeq] at h
      exact List.mem_cons_of_mem _ (ih h)

theorem lookup_filter_nodup {β : Type} {l : List (String × β)} {k : String} {v : β}
    (p : String × β → Bool)
    (hnodup : (l.map Prod.fst).Nodup) (h : l.lookup k = some v) :
    (l.filter p).lookup k = if p (k, v) then some v else none := by
  induction l with
  | nil => simp [List.lookup] at h
  | cons e es ih =>
    obtain ⟨k0, v0⟩ := e
    rw [List.map_cons, List.nodup_cons] at hnodup
    by_cases he : k = k0
    · subst he
      simp only [List.lookup, beq_self_eq_true] at h
      simp only [Option.some.injEq] at h
      subst h
      by_cases hp : p (k, v0)
      · rw [if_pos hp, List.filter_cons_of_pos (by simpa using hp)]
        simp [List.lookup]
      · rw [if_neg hp, List.filter_cons_of_neg (by simpa using hp)]
        cases hlk2 : (es.filter p).lookup k with
        | none => rfl
        | some w =>
          exfalso
          have hmem : (k, w) ∈ List.filter p es := mem_of_lookup hlk2
          have hmem2 : (k, w) ∈ es := List.mem_of_mem_filter hmem
          have hk : k ∈ List.map Prod.fst es := by
            simpa using List.mem_map_of_mem Prod.fst hmem2
          exact hnodup.1 hk
    · have hbeq : (k == k0) = false := by simp [beq_iff_eq, he]
      simp only [List.lookup, hbeq] at h
      by_cases hp : p (k0, v0)
      · rw [List.filter_cons_of_pos (by simpa using hp), List.lookup, hbeq]
        exact ih hnodup.2 h
      · rw [List.filter_cons_of_neg (by simpa using hp)]
        exact ih hnodup.2 h

/-! ## C5 — manager capacity check -/

/-- C5, counterexample: a manager at capacity (`max_buffers = 1`) already holds
a buffer for message `"m"`, yet `AddChunk` of a further fragment of that very
message is rejected with the capacity-exhausted error, refuting "a fragment
whose message already has a buffer is never rejected for manager capacity". -/
theorem addChunk_capacity_rejects_existing_message :
    (fullMgr.buffers.lookup "m").isSome = true ∧
    (fullMgr.addChunk 101 (sampleMsg 1)).2 = some BufError.bufferLimit := by
  constructor <;> rfl

/-- C5 (amended): `AddChunk` returns the capacity-exhausted error exactly when
the manager already holds `max_buffers` buffers, regardless of whether a
buffer already exists for the fragment's message. -/
theorem addChunk_bufferLimit_iff (m : Manager) (now : Nat) (c : ResponseChunk) :
    (m.addChunk now c).2 = some BufError.bufferLimit ↔
      m.maxBuffersPerPod ≤ m.buffers.length := by
  unfold Manager.addChunk
  by_cases h : m.maxBuffersPerPod ≤ m.buffers.length
  · simp [h]
  · simp only [if_neg h]
    constructor
    · intro hcontra
      exfalso
      revert hcontra
      split
      · simp
      · split <;> simp
    · intro hcontra
      exact absurd hcontra h

/-! ## C7 — submit handler on publish failure -/

/-- C7: with a well-formed chat submission and a failing bus publish,
`HandleChat` performs exactly one publish attempt (no retry) but writes HTTP
status 500 (`StatusInternalServerError`), not the 503 required by the spec and
by the repository's own architecture notes ("Return 503 Service Unavailable to
clients" on NATS failure). -/
theorem handleChat_publish_failure_returns_500 :
    handleChat "POST" (some { sessionID := "s1", userID := "u1", message := "hi" }) false
      = (500, 1) := rfl

/-! ## C9 — pod-id extraction from directory members -/

/-- C9: the fixed-width extraction of `GetActivePods` panics (Go slice bounds
out of range, modelled as `none`) on the membership string `"pod-1:s"`, whose
stream id is shorter than the assumed 36 characters, while the split at the
last `:` demanded by the spec yields `"pod-1"`. -/
theorem getActivePods_short_member_panics :
    getActivePods [("pod-1:s").data] = none ∧
    splitInstanceID ("pod-1:s").data = some ("pod-1").data := by
  constructor <;> rfl

/-! ## C6 — sweeper policy for final-but-gapped buffers -/

/-- C6, counterexample: a buffer that has seen `is_final` but still misses
sequence 1, with `updated_at` equal to the sweep instant (so younger than the
30-unit `missing_chunk_timeout`), is nevertheless evicted by the very next
`cleanup` pass, refuting "never evicts it while its `updated_at` is younger
than `missing_chunk_timeout`". -/
theorem cleanup_evicts_young_gapped_final_buffer :
    gapMgr.buffers.lookup "m" = some gapBuf ∧
    gapBuf.isFinal = true ∧
    (gapBuf.chunks.lookup 1).isNone = true ∧
    100 < gapBuf.updatedAt + gapMgr.missingChunkTimeout ∧
    (gapMgr.cleanup 100).buffers.lookup "m" = none := by
  refine ⟨rfl, rfl, rfl, by decide, rfl⟩

/-- C6 (amended): a `cleanup` pass keeps a buffer exactly when it is neither
stale (`updated_at` older than `max_buffer_age`) nor finalized; in particular
every buffer with `final_seen`, gapped or not, is evicted on the next pass
regardless of `missing_chunk_timeout`, and `cleanup` assembles no message, so
no `message_complete` can be emitted for it. -/
theorem cleanup_eviction_policy (m : Manager) (now : Nat) (mid : String) (b : ChunkBuffer)
    (hnodup : (m.buffers.map Prod.fst).Nodup)
    (hb : m.buffers.lookup mid = some b) :
    (m.cleanup now).buffers.lookup mid =
      if b.updatedAt + m.maxBufferAge < now ∨ b.isFinal = true then none else some b := by
  unfold Manager.cleanup
  rw [lookup_filter_nodup _ hnodup hb]
  by_cases h1 : b.updatedAt + m.maxBufferAge < now
  · simp [h1]
  · by_cases h2 : b.isFinal = true
    · simp [h1, h2]
    · simp [h1, h2]

/-- C6 witness: the amended eviction rule applied to the concrete gapped final
buffer of `gapMgr`. -/
theorem cleanup_eviction_policy_witness :
    (gapMgr.cleanup 100).buffers.lookup "m" = none := by
  have h := cleanup_eviction_policy gapMgr 100 "m" gapBuf (by decide) (by rfl)
  rw [h]
  decide

/-! ## C4 — duplicate-fragment idempotence -/

/-- C4, counterexample: at manager capacity the stored fragment 0 of message
`"m"` re-arrives unchanged, yet `AddChunk` returns the capacity error instead
of absorbing the duplicate silently, refuting "for every buffer state". -/
theorem addChunk_duplicate_rejected_at_capacity :
    ((fullMgr.buffers.lookup "m").bind (fun b => b.chunks.lookup 0) = some (sampleMsg 0)) ∧
    (fullMgr.addChunk 101 (sampleMsg 0)).2 = some BufError.bufferLimit := by
  constructor <;> rfl

/-- C4 (amended): provided the manager is below `max_buffers` and the target
buffer below `max_chunks`, re-adding a fragment whose (message id, sequence)
is already stored with equal payload returns success and leaves the manager
unchanged; consequently every subsequent `GetNextChunks` emission is identical
to a run without the duplicate. -/
theorem addChunk_duplicate_idempotent (m : Manager) (now : Nat) (c c0 : ResponseChunk)
    (b : ChunkBuffer)
    (hcap : m.buffers.length < m.maxBuffersPerPod)
    (hb : m.buffers.lookup c.messageID = some b)
    (hchunkcap : b.chunks.length < m.maxChunksPerBuffer)
    (hdup : b.chunks.lookup c.chunkID = some c0)
    (hpay : c0.chunk = c.chunk) :
    m.addChunk now c = (m, none) ∧
    ∀ mid, (m.addChunk now c).1.getNextChunks mid = m.getNextChunks mid := by
  have hmain : m.addChunk now c = (m, none) := by
    unfold Manager.addChunk
    rw [if_neg (Nat.not_le.mpr hcap), hb]
    simp only
    rw [if_neg (Nat.not_le.mpr hchunkcap), hdup]
    simp only
    rw [updateEntry_self_eq _ _ _ hb]
  exact ⟨hmain, fun mid => by rw [hmain]⟩

/-- C4 witness: the amended idempotence applied to a concrete two-buffer-slot
manager holding fragment 0 of message `"m"`. -/
theorem addChunk_duplicate_idempotent_witness :
    ((Manager.new 2 10 300 30 30).addChunk 100 (sampleMsg 0) |>.1).addChunk 101 (sampleMsg 0)
      = ((Manager.new 2 10 300 30 30).addChunk 100 (sampleMsg 0) |>.1, none) := by
  have h := addChunk_duplicate_idempotent
    ((Manager.new 2 10 300 30 30).addChunk 100 (sampleMsg 0) |>.1) 101
    (sampleMsg 0) (sampleMsg 0)
    (((Manager.new 2 10 300 30 30).addChunk 100 (sampleMsg 0) |>.1).buffers.lookup
        (sampleMsg 0).messageID |>.getD (permBuf "s1" "m" sampleMsg 100 [0]))
    (by decide) (by rfl) (by decide) (by rfl) rfl
  exact h.1

/-! ## C2 — the drain loop of `GetNextChunks` -/

theorem collectChunks_snd (chunks : List (Nat × ResponseChunk)) :
    ∀ (fuel next : Nat),
      (collectChunks chunks next fuel).2 = next + (collectChunks chunks next fuel).1.length := by
  intro fuel
  induction fuel with
  | zero => intro next; simp [collectChunks]
  | succ f ih =>
    intro next
    simp only [collectChunks]
    cases h : chunks.lookup next with
    | none => simp
    | some c =>
      cases hf : c.isFinal with
      | true => simp [hf]
      | false =>
        simp only [hf, Bool.false_eq_true, if_false, List.length_cons]
        rw [ih (next + 1)]
        omega

theorem collectChunks_get (chunks : List (Nat × ResponseChunk)) :
    ∀ (fuel next j : Nat), j < (collectChunks chunks next fuel).1.length →
      (collectChunks chunks next fuel).1.get? j = chunks.lookup (next + j) := by
  intro fuel
  induction fuel with
  | zero => intro next j h; simp [collectChunks] at h
  | succ f ih =>
    intro next j h
    simp only [collectChunks] at h ⊢
    cases hc : chunks.lookup next with
    | none => simp [hc] at h
    | some c =>
      cases hf : c.isFinal with
      | true =>
        simp only [hc, hf, if_true, List.length_cons, List.length_nil] at h ⊢
        have hj : j = 0 := by omega
        subst hj
        simpa using hc.symm
      | false =>
        simp only [hc, hf, Bool.false_eq_true, if_false, List.length_cons] at h ⊢
        cases j with
        | zero => simpa using hc.symm
        | succ j0 =>
          have hj0 : j0 < (collectChunks chunks (next + 1) f).1.length := by omega
          have hih := ih (next + 1) j0 hj0
          simp only [List.get?_cons_succ]
          rw [hih]
          congr 1
          omega

theorem collectChunks_no_inner_final (chunks : List (Nat × ResponseChunk)) :
    ∀ (fuel next j : Nat) (c : ResponseChunk),
      j + 1 < (collectChunks chunks next fuel).1.length →
      (collectChunks chunks next fuel).1.get? j = some c → c.isFinal = false := by
  intro fuel
  induction fuel with
  | zero => intro next j c h _; simp [collectChunks] at h
  | succ f ih =>
    intro next j c h hg
    simp only [collectChunks] at h hg
    cases hc : chunks.lookup next with
    | none => simp [hc] at h
    | some c0 =>
      cases hf : c0.isFinal with
      | true =>
        simp only [hc, hf, if_true, List.length_cons, List.length_nil] at h
        omega
      | false =>
        simp only [hc, hf, Bool.false_eq_true, if_false, List.length_cons] at h hg
        cases j with
        | zero =>
          simp only [List.get?_cons_zero, Option.some.injEq] at hg
          rw [← hg]
          exact hf
        | succ j0 =>
          have hj0 : j0 + 1 < (collectChunks chunks (next + 1) f).1.length := by omega
          simp only [List.get?_cons_succ] at hg
          exact ih (next + 1) j0 c hj0 hg

theorem countP_lookup_decrease (chunks : List (Nat × ResponseChunk)) (next : Nat)
    (c : ResponseChunk) (h : chunks.lookup next = some c) :
    chunks.countP (fun kv => decide (next + 1 ≤ kv.1)) <
      chunks.countP (fun kv => decide (next ≤ kv.1)) := by
  induction chunks with
  | nil => simp [List.lookup] at h
  | cons e es ih =>
    obtain ⟨k0, v0⟩ := e
    simp only [List.countP_cons, decide_eq_true_eq]
    by_cases he : next = k0
    · subst he
      have hmono : es.countP (fun kv => decide (next + 1 ≤ kv.1)) ≤
          es.countP (fun kv => decide (next ≤ kv.1)) := by
        apply List.countP_mono_left
        intro x _ hx
        simp only [decide_eq_true_eq] at hx ⊢
        omega
      rw [if_neg (by omega : ¬ (next + 1 ≤ (next, v0).1)),
        if_pos (Nat.le_refl next : next ≤ (next, v0).1)]
      omega
    · have hbeq : (next == k0) = false := by simp [beq_iff_eq, he]
      simp only [List.lookup, hbeq] at h
      have hstrict := ih h
      by_cases hk : next + 1 ≤ k0
      · rw [if_pos (by simpa using hk), if_pos (by omega : next ≤ (k0, v0).1)]
        omega
      · rw [if_neg (by simpa using hk)]
        by_cases hk2 : next ≤ k0
        · rw [if_pos (by simpa using hk2)]
          omega
        · rw [if_neg (by simpa using hk2)]
          omega

theorem collectChunks_stop (chunks : List (Nat × ResponseChunk)) :
    ∀ (fuel next : Nat),
      chunks.countP (fun kv => decide (next ≤ kv.1)) < fuel →
      chunks.lookup (next + (collectChunks chunks next fuel).1.length) = none ∨
      ∃ c, (collectChunks chunks next fuel).1.getLast? = some c ∧ c.isFinal = true := by
  intro fuel
  induction fuel with
  | zero => intro next h; omega
  | succ f ih =>
    intro next hfuel
    simp only [collectChunks]
    cases hc : chunks.lookup next with
    | none => left; simpa using hc
    | some c =>
      cases hf : c.isFinal with
      | true =>
        right
        exact ⟨c, by simp [hf], hf⟩
      | false =>
        simp only [hf, Bool.false_eq_true, if_false]
        have hdec := countP_lookup_decrease chunks next c hc
        have hfuel2 : chunks.countP (fun kv => decide (next + 1 ≤ kv.1)) < f := by omega
        rcases ih (next + 1) hfuel2 with hnone | ⟨c1, hlast, hfin⟩
        · left
          rw [List.length_cons, show next + ((collectChunks chunks (next + 1) f).1.length + 1)
              = next + 1 + (collectChunks chunks (next + 1) f).1.length from by omega]
          exact hnone
        · right
          refine ⟨c1, ?_, hfin⟩
          cases hr : (collectChunks chunks (next + 1) f).1 with
          | nil => rw [hr] at hlast; simp at hlast
          | cons a l =>
            rw [hr] at hlast
            rw [List.getLast?_cons_cons, hlast]

/-- C2: `GetNextChunks` on an existing buffer returns the fragments stored at
the consecutive sequences `next_to_emit, next_to_emit+1, …` up to the first
gap, stopping right after a fragment with `is_final` (no earlier returned
fragment is final); it advances the buffer's `next_to_emit` by exactly the
number of returned fragments; and the returned `is_complete` flag equals
`final_seen && final_seq < new next_to_emit`. -/
theorem getNextChunks_spec (m : Manager) (mid : String) (b : ChunkBuffer)
    (hb : m.buffers.lookup mid = some b) :
    ∃ out isComplete,
      (m.getNextChunks mid).2 = some (out, isComplete) ∧
      (m.getNextChunks mid).1.buffers.lookup mid
        = some { b with nextToSend := b.nextToSend + out.length } ∧
      (∀ j, j < out.length → out.get? j = b.chunks.lookup (b.nextToSend + j)) ∧
      (∀ j c, j + 1 < out.length → out.get? j = some c → c.isFinal = false) ∧
      (b.chunks.lookup (b.nextToSend + out.length) = none ∨
        ∃ c, out.getLast? = some c ∧ c.isFinal = true) ∧
      isComplete = (b.isFinal && decide (b.finalChunkID < b.nextToSend + out.length)) := by
  have hfuel : b.chunks.countP (fun kv => decide (b.nextToSend ≤ kv.1)) <
      b.chunks.length + 1 :=
    Nat.lt_succ_of_le (List.countP_le_length _)
  refine ⟨(collectChunks b.chunks b.nextToSend (b.chunks.length + 1)).1,
    b.isFinal && decide (b.finalChunkID <
      b.nextToSend + (collectChunks b.chunks b.nextToSend (b.chunks.length + 1)).1.length),
    ?_, ?_, ?_, ?_, ?_, rfl⟩
  · unfold Manager.getNextChunks
    rw [hb]
    simp only
    rw [collectChunks_snd]
  · unfold Manager.getNextChunks
    rw [hb]
    simp only
    rw [lookup_updateEntry_self]
    rw [collectChunks_snd]
  · exact fun j h => collectChunks_get b.chunks (b.chunks.length + 1) b.nextToSend j h
  · exact fun j c h hg =>
      collectChunks_no_inner_final b.chunks (b.chunks.length + 1) b.nextToSend j c h hg
  · exact collectChunks_stop b.chunks (b.chunks.length + 1) b.nextToSend hfuel

/-- C2 witness: the drain specification applied to the concrete gapped manager
`gapMgr` (fragments 0 and 2 stored, `next_to_emit = 0`). -/
theorem getNextChunks_spec_witness :
    gapMgr.buffers.lookup "m" = some gapBuf ∧
    ∃ out isComplete, (gapMgr.getNextChunks "m").2 = some (out, isComplete) := by
  refine ⟨rfl, ?_⟩
  obtain ⟨out, isComplete, h1, -⟩ := getNextChunks_spec gapMgr "m" gapBuf (by rfl)
  exact ⟨out, isComplete, h1⟩

/-! ## C8 — the per-buffer invariant -/

/-- C8, counterexample: after the final fragment (sequence 0) is followed by a
later fragment (sequence 1) and then emitted, the buffer of `invMgr` has
`final_seen` with `final_seq = 0 < max_seen = 1` (refuting `final_seq ≥
max_seen once final_seen`) and still stores the fragment at sequence 0 although
`next_to_emit = 1` (refuting "no fragment below next_to_emit remains stored").
Both states were produced by plain `AddChunk`/`GetNextChunks` calls. -/
theorem buffer_invariant_violated :
    (invMgr.buffers.lookup "m").map
        (fun b => (b.isFinal, b.finalChunkID, b.maxChunkID, b.nextToSend,
          (b.chunks.lookup 0).isSome))
      = some (true, 0, 1, 1, true) := by decide

theorem seqWF_of_lookup {m : Manager} {mid : String} {b : ChunkBuffer}
    (hwf : m.SeqWF) (hb : m.buffers.lookup mid = some b) : b.SeqWF :=
  hwf (mid, b) (mem_of_lookup hb)

theorem addChunk_seqWF (m : Manager) (now : Nat) (c : ResponseChunk)
    (hwf : m.SeqWF) : ((m.addChunk now c).1).SeqWF := by
  unfold Manager.addChunk
  by_cases hcap : m.maxBuffersPerPod ≤ m.buffers.length
  · simpa [hcap] using hwf
  · simp only [if_neg hcap]
    set buffer : ChunkBuffer :=
      match m.buffers.lookup c.messageID with
      | some b => b
      | none =>
        { sessionID := c.sessionID
          messageID := c.messageID
          chunks := []
          maxChunkID := 0
          nextToSend := 0
          isFinal := false
          finalChunkID := 0
          createdAt := now
          updatedAt := 0 } with hbuffer
    have hbufWF : buffer.SeqWF := by
      rw [hbuffer]
      cases hlk : m.buffers.lookup c.messageID with
      | some b => exact seqWF_of_lookup hwf hlk
      | none => exact ⟨by simp, by simp⟩
    by_cases hchunk : m.maxChunksPerBuffer ≤ buffer.chunks.length
    · simp only [if_pos hchunk]
      intro kv hkv
      rcases mem_updateEntry hkv with h | h
      · rw [h]; exact hbufWF
      · exact hwf kv h
    · simp only [if_neg hchunk]
      cases hdup : buffer.chunks.lookup c.chunkID with
      | some c0 =>
        intro kv hkv
        rcases mem_updateEntry hkv with h | h
        · rw [h]; exact hbufWF
        · exact hwf kv h
      | none =>
        intro kv hkv
        rcases mem_updateEntry hkv with h | h
        · rw [h]
          obtain ⟨h1, h2⟩ := hbufWF
          constructor
          · simp only
            by_cases hlt : buffer.maxChunkID < c.chunkID
            · rw [if_pos hlt]; omega
            · rw [if_neg hlt]; omega
          · intro kv2 hkv2
            simp only [List.mem_cons] at hkv2
            rcases hkv2 with h3 | h3
            · rw [h3]
              simp only
              by_cases hlt : buffer.maxChunkID < c.chunkID
              · rw [if_pos hlt]
              · rw [if_neg hlt]; omega
            · have := h2 kv2 h3
              simp only
              by_cases hlt : buffer.maxChunkID < c.chunkID
              · rw [if_pos hlt]; omega
              · rw [if_neg hlt]; omega
        · exact hwf kv h

theorem getNextChunks_seqWF (m : Manager) (mid : String)
    (hwf : m.SeqWF) : ((m.getNextChunks mid).1).SeqWF := by
  unfold Manager.getNextChunks
  cases hlk : m.buffers.lookup mid with
  | none => exact hwf
  | some buffer =>
    simp only
    intro kv hkv
    rcases mem_updateEntry hkv with h | h
    · rw [h]
      obtain ⟨h1, h2⟩ := seqWF_of_lookup hwf hlk
      refine ⟨?_, h2⟩
      simp only
      rw [collectChunks_snd]
      set len := (collectChunks buffer.chunks buffer.nextToSend
        (buffer.chunks.length + 1)).1.length with hlen
      cases hl : len with
      | zero => omega
      | succ n =>
        have hget := collectChunks_get buffer.chunks (buffer.chunks.length + 1)
          buffer.nextToSend n (by omega)
        cases hc : buffer.chunks.lookup (buffer.nextToSend + n) with
        | none =>
          exfalso
          rw [hc] at hget
          have hlelen := List.get?_eq_none.mp hget
          rw [← hlen] at hlelen
          omega
        | some cx =>
          have hmem := mem_of_lookup hc
          have := h2 _ hmem
          simp only at this
          omega
    · exact hwf kv h

theorem finalizeMessage_seqWF (m : Manager) (mid : String) (tnow : Nat)
    (hwf : m.SeqWF) : ((m.finalizeMessage mid tnow).1).SeqWF := by
  unfold Manager.finalizeMessage
  cases hlk : m.buffers.lookup mid with
  | none => exact hwf
  | some buffer =>
    have hdel : ({ m with buffers := deleteEntry m.buffers mid } : Manager).SeqWF := by
      intro kv hkv
      exact hwf kv (List.mem_of_mem_filter hkv)
    simp only
    by_cases hf : buffer.isFinal = false
    · simpa [hf] using hdel
    · simp only [hf, if_false]
      cases hfind : (List.range (buffer.finalChunkID + 1)).find?
          (fun i => (buffer.chunks.lookup i).isNone) with
      | some i => exact hdel
      | none => exact hdel

theorem cleanup_seqWF (m : Manager) (now : Nat) (hwf : m.SeqWF) :
    (m.cleanup now).SeqWF := by
  intro kv hkv
  exact hwf kv (List.mem_of_mem_filter hkv)

/-- C8 (amended): every state-changing buffer-manager operation (`AddChunk`,
`GetNextChunks`, `FinalizeMessage`, `cleanup`; `GetState` is read-only by
construction) preserves, for each live buffer, `next_to_emit ≤ max_seen + 1`
together with the auxiliary fact that every stored sequence is at most
`max_seen`.  The other two conjuncts of the spec invariant — `final_seq ≥
max_seen` once `final_seen`, and the absence of fragments below
`next_to_emit` — are refuted by the counterexample. -/
theorem manager_seqWF_preserved (m : Manager) (now tnow : Nat) (c : ResponseChunk)
    (mid mid2 : String) (hwf : m.SeqWF) :
    ((m.addChunk now c).1).SeqWF ∧
    ((m.getNextChunks mid).1).SeqWF ∧
    ((m.finalizeMessage mid2 tnow).1).SeqWF ∧
    (m.cleanup now).SeqWF :=
  ⟨addChunk_seqWF m now c hwf, getNextChunks_seqWF m mid hwf,
    finalizeMessage_seqWF m mid2 tnow hwf, cleanup_seqWF m now hwf⟩

/-- C8 witness: the preserved invariant applied to the concrete manager
`gapMgr`. -/
theorem manager_seqWF_preserved_witness :
    ((gapMgr.addChunk 101 (sampleMsg 1)).1).SeqWF :=
  (manager_seqWF_preserved gapMgr 101 0 (sampleMsg 1) "m" "m"
    (by unfold Manager.SeqWF ChunkBuffer.SeqWF; decide)).1

/-! ## C3 — `FinalizeMessage` -/

theorem strfoldl_shift : ∀ (l : List String) (s : String),
    l.foldl (· ++ ·) s = s ++ l.foldl (· ++ ·) "" := by
  intro l
  induction l with
  | nil => intro s; simp
  | cons a l ih =>
    intro s
    simp only [List.foldl_cons]
    rw [ih (s ++ a), ih ("" ++ a)]
    simp [String.append_assoc]

theorem strJoin_cons (a : String) (l : List String) :
    String.join (a :: l) = a ++ String.join l := by
  simp only [String.join, List.foldl_cons]
  rw [strfoldl_shift l ("" ++ a)]
  simp

/-- The per-index content contribution of the reassembly loop. -/
theorem finStep_content (ch : List (Nat × ResponseChunk)) (st : FinState) (i : Nat) :
    (finStep ch st i).content =
      st.content ++ ((ch.lookup i).bind
        (fun c => if c.chunkType = "content" then some c.chunk else none)).getD "" := by
  unfold finStep
  cases hc : ch.lookup i with
  | none => simp
  | some c =>
    by_cases ht : c.chunkType = "content"
    · cases hf : c.isFinal with
      | false => simp [ht, hf]
      | true =>
        cases hm : c.metadata with
        | none => simp [ht, hf, hm]
        | some md => simp [ht, hf, hm]
    · cases hf : c.isFinal with
      | false => simp [ht, hf]
      | true =>
        cases hm : c.metadata with
        | none => simp [ht, hf, hm]
        | some md => simp [ht, hf, hm]

/-- A non-final (or missing) index leaves the metadata and token accumulators
alone. -/
theorem finStep_meta_of_notfinal (ch : List (Nat × ResponseChunk)) (st : FinState) (i : Nat)
    (h : ∀ c, ch.lookup i = some c → c.isFinal = false) :
    (finStep ch st i).metadata = st.metadata ∧
    (finStep ch st i).totalTokens = st.totalTokens := by
  unfold finStep
  cases hc : ch.lookup i with
  | none => exact ⟨rfl, rfl⟩
  | some c =>
    have hf := h c hc
    by_cases ht : c.chunkType = "content" <;> simp [ht, hf]

theorem foldl_finStep_content (ch : List (Nat × ResponseChunk)) :
    ∀ (idxs : List Nat) (st : FinState),
      (idxs.foldl (finStep ch) st).content =
        st.content ++ String.join (idxs.map (fun i => ((ch.lookup i).bind
          (fun c => if c.chunkType = "content" then some c.chunk else none)).getD "")) := by
  intro idxs
  induction idxs with
  | nil => intro st; simp [String.join]
  | cons i rest ih =>
    intro st
    simp only [List.foldl_cons, List.map_cons]
    rw [ih (finStep ch st i), strJoin_cons, finStep_content, String.append_assoc]

theorem foldl_finStep_meta (ch : List (Nat × ResponseChunk)) :
    ∀ (idxs : List Nat) (st : FinState),
      (∀ i ∈ idxs, ∀ c, ch.lookup i = some c → c.isFinal = false) →
      (idxs.foldl (finStep ch) st).metadata = st.metadata ∧
      (idxs.foldl (finStep ch) st).totalTokens = st.totalTokens := by
  intro idxs
  induction idxs with
  | nil => intro st _; exact ⟨rfl, rfl⟩
  | cons i rest ih =>
    intro st h
    simp only [List.foldl_cons]
    have hstep := finStep_meta_of_notfinal ch st i
      (fun c hc => h i (List.mem_cons_self i rest) c hc)
    have hrest := ih (finStep ch st i)
      (fun j hj c hc => h j (List.mem_cons_of_mem i hj) c hc)
    exact ⟨hrest.1.trans hstep.1, hrest.2.trans hstep.2⟩

/-- `String.join` over the padded map equals the join over the `filterMap`
that drops the non-`content` entries. -/
theorem strJoin_map_getD (g : Nat → Option String) :
    ∀ (l : List Nat),
      String.join (l.map (fun i => (g i).getD "")) = String.join (l.filterMap g) := by
  intro l
  induction l with
  | nil => simp
  | cons i rest ih =>
    cases hg : g i with
    | none =>
      simp only [List.map_cons, List.filterMap_cons, hg]
      rw [strJoin_cons, ih]
      simp
    | some s =>
      simp only [List.map_cons, List.filterMap_cons, hg]
      rw [strJoin_cons, strJoin_cons, ih]
      simp

/-- C3: `FinalizeMessage` always removes the buffer from the manager; it
succeeds exactly when `final_seen` holds and every sequence in
`[0, final_seq]` is stored; and on success the returned Message carries the
ascending-order concatenation of the `content`-typed payloads, the metadata
bag of the (unique) `is_final` fragment, and that bag's numeric `tokens_used`
field as token count (0 when absent). -/
theorem finalizeMessage_spec (m : Manager) (mid : String) (b : ChunkBuffer) (tnow : Nat)
    (hb : m.buffers.lookup mid = some b)
    (huniq : ∀ i c, i ≤ b.finalChunkID → b.chunks.lookup i = some c →
      (c.isFinal = true ↔ i = b.finalChunkID)) :
    ((m.finalizeMessage mid tnow).1.buffers.lookup mid = none) ∧
    ((∃ msg, (m.finalizeMessage mid tnow).2 = Except.ok msg) ↔
      (b.isFinal = true ∧ ∀ i, i ≤ b.finalChunkID → (b.chunks.lookup i).isSome = true)) ∧
    (∀ msg, (m.finalizeMessage mid tnow).2 = Except.ok msg →
      msg.content = specContent b ∧ msg.metadata = specFinalMeta b ∧
      msg.tokenCount = specTokens b ∧ msg.messageID = mid ∧
      msg.sessionID = b.sessionID) := by
  have h1 : (m.finalizeMessage mid tnow).1 = { m with buffers := deleteEntry m.buffers mid } := by
    unfold Manager.finalizeMessage
    rw [hb]
    simp only
    by_cases hf : b.isFinal = false
    · simp [hf]
    · rw [if_neg hf]
      cases hfind : (List.range (b.finalChunkID + 1)).find?
          (fun i => (b.chunks.lookup i).isNone) <;> simp
  refine ⟨?_, ?_, ?_⟩
  · rw [h1]
    exact lookup_deleteEntry_self m.buffers mid
  · constructor
    · rintro ⟨msg, hmsg⟩
      unfold Manager.finalizeMessage at hmsg
      rw [hb] at hmsg
      simp only at hmsg
      by_cases hf : b.isFinal = false
      · rw [if_pos hf] at hmsg
        simp at hmsg
      · rw [if_neg hf] at hmsg
        have hfin : b.isFinal = true := by
          cases hbf : b.isFinal
          · exact absurd hbf hf
          · rfl
        cases hfind : (List.range (b.finalChunkID + 1)).find?
            (fun i => (b.chunks.lookup i).isNone) with
        | some i => rw [hfind] at hmsg; simp at hmsg
        | none =>
          refine ⟨hfin, fun i hi => ?_⟩
          have hmem : i ∈ List.range (b.finalChunkID + 1) :=
            List.mem_range.mpr (Nat.lt_succ_iff.mpr hi)
          have := List.find?_eq_none.mp hfind i hmem
          cases ho : b.chunks.lookup i with
          | none => rw [ho] at this; simp at this
          | some c => rfl
    · rintro ⟨hfin, hdense⟩
      unfold Manager.finalizeMessage
      rw [hb]
      simp only
      rw [if_neg (by simp [hfin])]
      have hfind : (List.range (b.finalChunkID + 1)).find?
          (fun i => (b.chunks.lookup i).isNone) = none := by
        apply List.find?_eq_none.mpr
        intro i hmem
        have hi : i ≤ b.finalChunkID := Nat.lt_succ_iff.mp (List.mem_range.mp hmem)
        have := hdense i hi
        cases ho : b.chunks.lookup i with
        | none => rw [ho] at this; simp at this
        | some c => simp [ho]
      rw [hfind]
      exact ⟨_, rfl⟩
  · intro msg hmsg
    unfold Manager.finalizeMessage at hmsg
    rw [hb] at hmsg
    simp only at hmsg
    by_cases hf : b.isFinal = false
    · rw [if_pos hf] at hmsg
      simp at hmsg
    · rw [if_neg hf] at hmsg
      cases hfind : (List.range (b.finalChunkID + 1)).find?
          (fun i => (b.chunks.lookup i).isNone) with
      | some i => rw [hfind] at hmsg; simp at hmsg
      | none =>
        rw [hfind] at hmsg
        simp only [Except.ok.injEq] at hmsg
        subst hmsg
        have hdense : ∀ i, i ≤ b.finalChunkID → (b.chunks.lookup i).isSome = true := by
          intro i hi
          have hmem : i ∈ List.range (b.finalChunkID + 1) :=
            List.mem_range.mpr (Nat.lt_succ_iff.mpr hi)
          have := List.find?_eq_none.mp hfind i hmem
          cases ho : b.chunks.lookup i with
          | none => rw [ho] at this; simp at this
          | some c => rfl
        obtain ⟨cfid, hcfid⟩ := Option.isSome_iff_exists.mp (hdense b.finalChunkID (Nat.le_refl _))
        have hcfin : cfid.isFinal = true :=
          (huniq b.finalChunkID cfid (Nat.le_refl _) hcfid).mpr rfl
        have hsplit : List.range (b.finalChunkID + 1)
            = List.range b.finalChunkID ++ [b.finalChunkID] := List.range_succ b.finalChunkID
        have hmeta0 : ∀ i ∈ List.range b.finalChunkID, ∀ c,
            b.chunks.lookup i = some c → c.isFinal = false := by
          intro i hmem c hc
          have hilt : i < b.finalChunkID := List.mem_range.mp hmem
          have hiff := huniq i c (Nat.le_of_lt hilt) hc
          cases hcf : c.isFinal
          · rfl
          · exact absurd (hiff.mp hcf) (Nat.ne_of_lt hilt)
        have hmetaTok := foldl_finStep_meta b.chunks (List.range b.finalChunkID)
          { content := "", totalTokens := 0, metadata := none } hmeta0
        have hfoldeq : List.foldl (finStep b.chunks)
            { content := "", totalTokens := 0, metadata := none }
            (List.range (b.finalChunkID + 1))
            = finStep b.chunks (List.foldl (finStep b.chunks)
              { content := "", totalTokens := 0, metadata := none }
              (List.range b.finalChunkID)) b.finalChunkID := by
          rw [hsplit, List.foldl_append]
          simp
        refine ⟨?_, ?_, ?_, rfl, rfl⟩
        · show (List.foldl (finStep b.chunks)
              { content := "", totalTokens := 0, metadata := none }
              (List.range (b.finalChunkID + 1))).content = specContent b
          rw [foldl_finStep_content]
          unfold specContent
          rw [strJoin_map_getD (fun i => (b.chunks.lookup i).bind
            (fun c => if c.chunkType = "content" then some c.chunk else none))]
          simp
        · show (List.foldl (finStep b.chunks)
              { content := "", totalTokens := 0, metadata := none }
              (List.range (b.finalChunkID + 1))).metadata = specFinalMeta b
          rw [hfoldeq]
          unfold specFinalMeta
          by_cases ht : cfid.chunkType = "content" <;>
            cases hm : cfid.metadata <;>
              simp [finStep, hcfid, hcfin, ht, hm, hmetaTok.1]
        · show (List.foldl (finStep b.chunks)
              { content := "", totalTokens := 0, metadata := none }
              (List.range (b.finalChunkID + 1))).totalTokens = specTokens b
          rw [hfoldeq]
          unfold specTokens specFinalMeta
          cases hm : cfid.metadata with
          | none =>
            by_cases ht : cfid.chunkType = "content" <;>
              simp [finStep, hcfid, hcfin, ht, hm, hmetaTok.2]
          | some md =>
            cases hlk : md.lookup "tokens_used" with
            | none =>
              by_cases ht : cfid.chunkType = "content" <;>
                simp [finStep, hcfid, hcfin, ht, hm, hlk, hmetaTok.2]
            | some mv =>
              cases mv with
              | num t =>
                by_cases ht : cfid.chunkType = "content" <;>
                  simp [finStep, hcfid, hcfin, ht, hm, hlk]
              | str s =>
                by_cases ht : cfid.chunkType = "content" <;>
                  simp [finStep, hcfid, hcfin, ht, hm, hlk, hmetaTok.2]
              | boolean bv =>
                by_cases ht : cfid.chunkType = "content" <;>
                  simp [finStep, hcfid, hcfin, ht, hm, hlk, hmetaTok.2]

/-- C3 witness: the finalize specification applied to the complete sample
message held by `seqMgr`. -/
theorem finalizeMessage_spec_witness :
    seqMgr.buffers.lookup "m" = some seqBuf ∧
    (seqMgr.finalizeMessage "m" 200).1.buffers.lookup "m" = none ∧
    ∃ msg, (seqMgr.finalizeMessage "m" 200).2 = Except.ok msg := by
  have huniq : ∀ i c, i ≤ seqBuf.finalChunkID → seqBuf.chunks.lookup i = some c →
      (c.isFinal = true ↔ i = seqBuf.finalChunkID) := by
    intro i c hi hc
    have hi2 : i ≤ 2 := hi
    interval_cases i <;>
      · simp only [seqBuf, sampleChunk, List.lookup] at hc
        simp at hc
        subst hc
        decide
  have h := finalizeMessage_spec seqMgr "m" seqBuf 200 (by rfl) huniq
  refine ⟨rfl, h.1, ?_⟩
  exact h.2.1.mpr ⟨by decide, by decide⟩

/-! ## C1 — permutation invariance of ingestion and finalize -/

theorem lookup_map_pair (f : Nat → ResponseChunk) :
    ∀ (done : List Nat) (k : Nat),
      (done.map (fun i => (i, f i))).lookup k = if k ∈ done then some (f k) else none := by
  intro done
  induction done with
  | nil => intro k; simp [List.lookup]
  | cons d rest ih =>
    intro k
    by_cases hk : k = d
    · subst hk
      simp [List.lookup]
    · have hbeq : (k == d) = false := by simp [beq_iff_eq, hk]
      simp only [List.map_cons, List.lookup, hbeq, ih k, List.mem_cons]
      by_cases hmem : k ∈ rest
      · simp [hmem, hk]
      · simp [hmem, hk]

theorem nodup_lt_length_le {l : List Nat} {n : Nat} (hn : l.Nodup)
    (hle : ∀ j ∈ l, j < n) : l.length ≤ n := by
  have h1 : l.toFinset ⊆ Finset.range n := by
    intro x hx
    exact Finset.mem_range.mpr (hle x (List.mem_toFinset.mp hx))
  have h2 := Finset.card_le_card h1
  rwa [List.toFinset_card_of_nodup hn, Finset.card_range] at h2

theorem ingest_step (B C A I T : Nat) (sid mid : String) (f : Nat → ResponseChunk)
    (now : Nat) (done : List Nat) (i : Nat)
    (hB : 2 ≤ B) (hlen : done.length < C)
    (hmidi : (f i).messageID = mid) (hsidi : (f i).sessionID = sid)
    (hseqi : (f i).chunkID = i) (hnotin : i ∉ done) :
    (permMgr B C A I T sid mid f now done).addChunk now (f i)
      = (permMgr B C A I T sid mid f now (i :: done), none) := by
  cases done with
  | nil =>
    unfold Manager.addChunk permMgr permBuf Manager.new
    simp only [List.isEmpty_nil, if_pos, List.length_nil, List.isEmpty_cons]
    rw [if_neg (by simp; omega)]
    simp only [List.lookup_nil]
    rw [if_neg (by simp; omega)]
    simp only [List.lookup_nil, hseqi, hmidi, hsidi]
    simp [updateEntry, List.map_cons]
  | cons d ds =>
    have hbuf : (permMgr B C A I T sid mid f now (d :: ds)).buffers
        = [(mid, permBuf sid mid f now (d :: ds))] := rfl
    have hlkp : List.lookup mid [(mid, permBuf sid mid f now (d :: ds))]
        = some (permBuf sid mid f now (d :: ds)) := by
      simp [List.lookup]
    have hchunks : (permBuf sid mid f now (d :: ds)).chunks
        = (d :: ds).map (fun j => (j, f j)) := rfl
    unfold Manager.addChunk
    rw [hbuf, hmidi, hlkp]
    simp only [List.length_cons, List.length_nil]
    rw [if_neg (by
      show ¬ ((permMgr B C A I T sid mid f now (d :: ds)).maxBuffersPerPod ≤ 0 + 1)
      show ¬ (B ≤ 0 + 1)
      omega)]
    rw [if_neg (by
      show ¬ ((permMgr B C A I T sid mid f now (d :: ds)).maxChunksPerBuffer
        ≤ (permBuf sid mid f now (d :: ds)).chunks.length)
      rw [hchunks]
      show ¬ (C ≤ ((d :: ds).map (fun j => (j, f j))).length)
      rw [List.length_map]
      simpa using hlen)]
    rw [hchunks, hseqi, lookup_map_pair f (d :: ds) i, if_neg hnotin]
    simp only [updateEntry]
    rw [if_pos trivial]
    show (({ permMgr B C A I T sid mid f now (d :: ds) with
      buffers := [(mid, { permBuf sid mid f now (d :: ds) with
        chunks := (i, f i) :: (d :: ds).map (fun j => (j, f j))
        updatedAt := now
        maxChunkID := if (permBuf sid mid f now (d :: ds)).maxChunkID < i then i
          else (permBuf sid mid f now (d :: ds)).maxChunkID
        isFinal := (permBuf sid mid f now (d :: ds)).isFinal || (f i).isFinal
        finalChunkID := if (f i).isFinal then i
          else (permBuf sid mid f now (d :: ds)).finalChunkID })] } : Manager), none)
      = (permMgr B C A I T sid mid f now (i :: d :: ds), none)
    rfl

theorem ingest_run (B C A I T : Nat) (sid mid : String) (f : Nat → ResponseChunk)
    (N now : Nat) (hB : 2 ≤ B) (hC : N + 1 ≤ C)
    (hmid : ∀ i, i ≤ N → (f i).messageID = mid)
    (hsid : ∀ i, i ≤ N → (f i).sessionID = sid)
    (hseq : ∀ i, i ≤ N → (f i).chunkID = i) :
    ∀ (todo done : List Nat),
      (∀ j ∈ todo, j ≤ N) → (∀ j ∈ done, j ≤ N) → (done ++ todo).Nodup →
      ingestAll (permMgr B C A I T sid mid f now done) now (todo.map f)
        = permMgr B C A I T sid mid f now (todo.reverse ++ done) := by
  intro todo
  induction todo with
  | nil =>
    intro done _ _ _
    simp [ingestAll]
  | cons t ts ih =>
    intro done htodo hdone hnodup
    have htN : t ≤ N := htodo t (List.mem_cons_self t ts)
    have hnotin : t ∉ done := by
      rw [List.nodup_append] at hnodup
      exact fun hmem => hnodup.2.2 hmem (List.mem_cons_self t ts)
    have hlen : done.length < C := by
      have hnd : (t :: done).Nodup := by
        rw [List.nodup_append] at hnodup
        rw [List.nodup_cons]
        exact ⟨hnotin, hnodup.1⟩
      have hlt : ∀ j ∈ t :: done, j < N + 1 := by
        intro j hj
        rcases List.mem_cons.mp hj with h | h
        · omega
        · have := hdone j h; omega
      have := nodup_lt_length_le hnd hlt
      simp at this
      omega
    have hstep := ingest_step B C A I T sid mid f now done t hB hlen
      (hmid t htN) (hsid t htN) (hseq t htN) hnotin
    have hnodup2 : ((t :: done) ++ ts).Nodup := by
      have hperm : (done ++ t :: ts).Perm ((t :: done) ++ ts) := by
        simpa using List.perm_middle
      exact hperm.nodup hnodup
    have hrest := ih (t :: done)
      (fun j hj => htodo j (List.mem_cons_of_mem t hj))
      (fun j hj => by
        rcases List.mem_cons.mp hj with h | h
        · omega
        · exact hdone j h)
      hnodup2
    show ingestAll ((permMgr B C A I T sid mid f now done).addChunk now (f t)).1 now
      (ts.map f) = _
    rw [hstep]
    simp only
    rw [hrest]
    congr 1
    simp

theorem exists_map_perm (f : Nat → ResponseChunk) :
    ∀ {L : List ResponseChunk} {r : List Nat},
      L.Perm (r.map f) → ∃ todo : List Nat, List.Perm todo r ∧ L = todo.map f := by
  intro L
  induction L with
  | nil =>
    intro r hperm
    have hmap : r.map f = [] := (List.nil_perm).mp hperm
    have hr : r = [] := List.map_eq_nil_iff.mp hmap
    exact ⟨[], by simp [hr], rfl⟩
  | cons b L2 ih =>
    intro r hperm
    have hbmem : b ∈ r.map f := hperm.mem_iff.mp (List.mem_cons_self b L2)
    obtain ⟨a, ha, hfa⟩ := List.mem_map.mp hbmem
    have hr2 : r.Perm (a :: r.erase a) := List.perm_cons_erase ha
    have hmapr : (r.map f).Perm (f a :: (r.erase a).map f) := by
      simpa using hr2.map f
    have hchain : (b :: L2).Perm (b :: (r.erase a).map f) := by
      rw [← hfa] at hperm ⊢
      exact hperm.trans hmapr
    have hL2 : L2.Perm ((r.erase a).map f) := hchain.cons_inv
    obtain ⟨todo2, hp2, heq2⟩ := ih hL2
    refine ⟨a :: todo2, ?_, ?_⟩
    · exact (hp2.cons a).trans hr2.symm
    · rw [List.map_cons, ← heq2, hfa]

theorem finalizeResult_congr (m1 m2 : Manager) (mid : String) (tnow : Nat)
    (b1 b2 : ChunkBuffer)
    (h1 : m1.buffers.lookup mid = some b1) (h2 : m2.buffers.lookup mid = some b2)
    (hsess : b1.sessionID = b2.sessionID) (hfin : b1.isFinal = b2.isFinal)
    (hfid : b1.finalChunkID = b2.finalChunkID)
    (hlk : ∀ k, b1.chunks.lookup k = b2.chunks.lookup k) :
    (m1.finalizeMessage mid tnow).2 = (m2.finalizeMessage mid tnow).2 := by
  have hfun : (fun i => (b1.chunks.lookup i).isNone)
      = (fun i => (b2.chunks.lookup i).isNone) := funext fun i => by rw [hlk]
  have hstep : finStep b1.chunks = finStep b2.chunks := by
    funext st i
    unfold finStep
    rw [hlk]
  unfold Manager.finalizeMessage
  rw [h1, h2]
  simp only
  rw [hfin, hfid, hfun, hstep, hsess]
  by_cases hf : b2.isFinal = false
  · simp [hf]
  · rw [if_neg hf, if_neg hf]
    cases hfind : (List.range (b2.finalChunkID + 1)).find?
        (fun i => (b2.chunks.lookup i).isNone) <;> simp

theorem foldr_or_final (f : Nat → ResponseChunk) (N : Nat) :
    ∀ (done : List Nat), N ∈ done → (f N).isFinal = true →
      done.foldr (fun i acc => acc || (f i).isFinal) false = true := by
  intro done
  induction done with
  | nil => intro h _; simp at h
  | cons d rest ih =>
    intro hN hf
    simp only [List.foldr_cons]
    rcases List.mem_cons.mp hN with h | h
    · rw [h] at hf
      simp [hf]
    · rw [ih h hf]
      simp

theorem foldr_final_id (f : Nat → ResponseChunk) (N : Nat) :
    ∀ (done : List Nat), N ∈ done →
      (∀ j ∈ done, ((f j).isFinal = true ↔ j = N)) →
      done.foldr (fun i acc => if (f i).isFinal then i else acc) 0 = N := by
  intro done
  induction done with
  | nil => intro h _; simp at h
  | cons d rest ih =>
    intro hN huniq
    simp only [List.foldr_cons]
    cases hfd : (f d).isFinal with
    | true =>
      have hd : d = N := (huniq d (List.mem_cons_self d rest)).mp hfd
      simp [hfd, hd]
    | false =>
      simp only [hfd, Bool.false_eq_true, if_false]
      have hNrest : N ∈ rest := by
        rcases List.mem_cons.mp hN with h | h
        · exfalso
          have hcontra := (huniq d (List.mem_cons_self d rest)).mpr h.symm
          rw [hfd] at hcontra
          exact Bool.noConfusion hcontra
        · exact h
      exact ih hNrest (fun j hj => huniq j (List.mem_cons_of_mem d hj))

theorem permBuf_isFinal (sid mid : String) (f : Nat → ResponseChunk) (now N : Nat)
    (done : List Nat) (hN : N ∈ done) (hfinN : (f N).isFinal = true) :
    (permBuf sid mid f now done).isFinal = true :=
  foldr_or_final f N done hN hfinN

theorem permBuf_finalChunkID (sid mid : String) (f : Nat → ResponseChunk) (now N : Nat)
    (done : List Nat) (hN : N ∈ done)
    (huniq : ∀ j ∈ done, ((f j).isFinal = true ↔ j = N)) :
    (permBuf sid mid f now done).finalChunkID = N :=
  foldr_final_id f N done hN huniq

theorem permMgr_lookup (B C A I T : Nat) (sid mid : String) (f : Nat → ResponseChunk)
    (now : Nat) (done : List Nat) (h : done ≠ []) :
    (permMgr B C A I T sid mid f now done).buffers.lookup mid
      = some (permBuf sid mid f now done) := by
  cases done with
  | nil => exact absurd rfl h
  | cons d ds => simp [permMgr, List.lookup]

theorem finalize_ok_of_dense (m : Manager) (mid : String) (b : ChunkBuffer) (tnow : Nat)
    (hb : m.buffers.lookup mid = some b) (hfin : b.isFinal = true)
    (hdense : ∀ i, i ≤ b.finalChunkID → (b.chunks.lookup i).isSome = true) :
    ∃ msg, (m.finalizeMessage mid tnow).2 = Except.ok msg := by
  unfold Manager.finalizeMessage
  rw [hb]
  simp only
  rw [if_neg (by simp [hfin])]
  have hfind : (List.range (b.finalChunkID + 1)).find?
      (fun i => (b.chunks.lookup i).isNone) = none := by
    apply List.find?_eq_none.mpr
    intro i hmem
    have hi := Nat.lt_succ_iff.mp (List.mem_range.mp hmem)
    have hsome := hdense i hi
    cases ho : b.chunks.lookup i with
    | none => rw [ho] at hsome; simp at hsome
    | some c => simp [ho]
  rw [hfind]
  exact ⟨_, rfl⟩

/-- C1: for any arrival permutation of the fragments with sequences
`{0, …, N}` of one message (`is_final` attached to sequence `N`), ingesting
them one by one via `AddChunk` into a fresh manager with room for them
(`max_buffers ≥ 2`, `max_chunks ≥ N + 1`) and then calling `FinalizeMessage`
yields exactly the result of the sequential-order run, and that run succeeds;
in particular the assembled Content is identical. -/
theorem addChunk_perm_finalize (B C A I T N now tnow : Nat) (mid sid : String)
    (f : Nat → ResponseChunk) (L : List ResponseChunk)
    (hB : 2 ≤ B) (hC : N + 1 ≤ C)
    (hmid : ∀ i, i ≤ N → (f i).messageID = mid)
    (hsid : ∀ i, i ≤ N → (f i).sessionID = sid)
    (hseq : ∀ i, i ≤ N → (f i).chunkID = i)
    (hfin : ∀ i, i ≤ N → ((f i).isFinal = true ↔ i = N))
    (hperm : L.Perm ((List.range (N + 1)).map f)) :
    ((ingestAll (Manager.new B C A I T) now L).finalizeMessage mid tnow).2
      = ((ingestAll (Manager.new B C A I T) now
          ((List.range (N + 1)).map f)).finalizeMessage mid tnow).2 ∧
    ∃ msg, ((ingestAll (Manager.new B C A I T) now L).finalizeMessage mid tnow).2
      = Except.ok msg := by
  obtain ⟨todo, htodo, hLeq⟩ := exists_map_perm f hperm
  subst hLeq
  have hmemiff : ∀ j, j ∈ todo ↔ j < N + 1 := fun j =>
    htodo.mem_iff.trans List.mem_range
  have htodoN : ∀ j ∈ todo, j ≤ N := fun j hj =>
    Nat.lt_succ_iff.mp ((hmemiff j).mp hj)
  have htodonodup : todo.Nodup := htodo.nodup_iff.mpr (List.nodup_range (N + 1))
  have hrangeN : ∀ j ∈ List.range (N + 1), j ≤ N := fun j hj =>
    Nat.lt_succ_iff.mp (List.mem_range.mp hj)
  have hnewmgr : permMgr B C A I T sid mid f now ([] : List Nat)
      = Manager.new B C A I T := rfl
  have hrun1 : ingestAll (Manager.new B C A I T) now (todo.map f)
      = permMgr B C A I T sid mid f now todo.reverse := by
    have h := ingest_run B C A I T sid mid f N now hB hC hmid hsid hseq todo []
      htodoN (by simp) (by simpa using htodonodup)
    rw [hnewmgr] at h
    simpa using h
  have hrun2 : ingestAll (Manager.new B C A I T) now ((List.range (N + 1)).map f)
      = permMgr B C A I T sid mid f now (List.range (N + 1)).reverse := by
    have h := ingest_run B C A I T sid mid f N now hB hC hmid hsid hseq
      (List.range (N + 1)) [] hrangeN (by simp)
      (by simpa using List.nodup_range (N + 1))
    rw [hnewmgr] at h
    simpa using h
  have hmem1 : ∀ j, j ∈ todo.reverse ↔ j ≤ N := by
    intro j
    rw [List.mem_reverse, hmemiff]
    omega
  have hmem2 : ∀ j, j ∈ (List.range (N + 1)).reverse ↔ j ≤ N := by
    intro j
    rw [List.mem_reverse, List.mem_range]
    omega
  have hN1 : N ∈ todo.reverse := (hmem1 N).mpr (Nat.le_refl N)
  have hN2 : N ∈ (List.range (N + 1)).reverse := (hmem2 N).mpr (Nat.le_refl N)
  have hne1 : todo.reverse ≠ [] := fun h => by rw [h] at hN1; simp at hN1
  have hne2 : (List.range (N + 1)).reverse ≠ [] := fun h => by rw [h] at hN2; simp at hN2
  have hfinN : (f N).isFinal = true := (hfin N (Nat.le_refl N)).mpr rfl
  have hlk1 := permMgr_lookup B C A I T sid mid f now todo.reverse hne1
  have hlk2 := permMgr_lookup B C A I T sid mid f now (List.range (N + 1)).reverse hne2
  have hbfin1 := permBuf_isFinal sid mid f now N todo.reverse hN1 hfinN
  have hbfin2 := permBuf_isFinal sid mid f now N (List.range (N + 1)).reverse hN2 hfinN
  have hbfid1 := permBuf_finalChunkID sid mid f now N todo.reverse hN1
    (fun j hj => hfin j ((hmem1 j).mp hj))
  have hbfid2 := permBuf_finalChunkID sid mid f now N (List.range (N + 1)).reverse hN2
    (fun j hj => hfin j ((hmem2 j).mp hj))
  have hlkchunks : ∀ k, (permBuf sid mid f now todo.reverse).chunks.lookup k
      = (permBuf sid mid f now (List.range (N + 1)).reverse).chunks.lookup k := by
    intro k
    rw [show (permBuf sid mid f now todo.reverse).chunks
      = todo.reverse.map (fun j => (j, f j)) from rfl]
    rw [show (permBuf sid mid f now (List.range (N + 1)).reverse).chunks
      = (List.range (N + 1)).reverse.map (fun j => (j, f j)) from rfl]
    rw [lookup_map_pair, lookup_map_pair]
    by_cases hk : k ≤ N
    · rw [if_pos ((hmem1 k).mpr hk), if_pos ((hmem2 k).mpr hk)]
    · rw [if_neg (fun hmem => hk ((hmem1 k).mp hmem)),
        if_neg (fun hmem => hk ((hmem2 k).mp hmem))]
  have hcongr := finalizeResult_congr
    (permMgr B C A I T sid mid f now todo.reverse)
    (permMgr B C A I T sid mid f now (List.range (N + 1)).reverse)
    mid tnow _ _ hlk1 hlk2 rfl (hbfin1.trans hbfin2.symm)
    (hbfid1.trans hbfid2.symm) hlkchunks
  constructor
  · rw [hrun1, hrun2]
    exact hcongr
  · rw [hrun1]
    apply finalize_ok_of_dense _ _ _ _ hlk1 hbfin1
    intro i hi
    rw [hbfid1] at hi
    rw [show (permBuf sid mid f now todo.reverse).chunks
      = todo.reverse.map (fun j => (j, f j)) from rfl]
    rw [lookup_map_pair, if_pos ((hmem1 i).mpr hi)]
    rfl

/-- C1 witness: the permutation-invariance theorem applied to the sample
message arriving in order 2, 0, 1. -/
theorem addChunk_perm_finalize_witness :
    ((ingestAll (Manager.new 10 10 300 30 30) 100
        [sampleMsg 2, sampleMsg 0, sampleMsg 1]).finalizeMessage "m" 200).2
      = ((ingestAll (Manager.new 10 10 300 30 30) 100
          ((List.range 3).map sampleMsg)).finalizeMessage "m" 200).2 ∧
    ∃ msg, ((ingestAll (Manager.new 10 10 300 30 30) 100
        [sampleMsg 2, sampleMsg 0, sampleMsg 1]).finalizeMessage "m" 200).2
      = Except.ok msg :=
  addChunk_perm_finalize 10 10 300 30 30 2 100 200 "m" "s1" sampleMsg
    [sampleMsg 2, sampleMsg 0, sampleMsg 1]
    (by decide) (by decide)
    (by intro i hi; interval_cases i <;> rfl)
    (by intro i hi; interval_cases i <;> rfl)
    (by intro i hi; interval_cases i <;> rfl)
    (by intro i hi; interval_cases i <;> decide)
    (by decide)

/-! ## C10 — agreement of the two SSE indices -/

theorem lookup_eq_none_iff {β : Type} (l : List (String × β)) (k : String) :
    l.lookup k = none ↔ k ∉ l.map Prod.fst := by
  induction l with
  | nil => simp [List.lookup]
  | cons e es ih =>
    by_cases he : k = e.1
    · have hbeq : (k == e.1) = true := by simp [beq_iff_eq, he]
      simp [List.lookup, hbeq, he]
    · have hbeq : (k == e.1) = false := by simp [beq_iff_eq, he]
      simp [List.lookup, hbeq, ih, he]

theorem updateEntry_of_lookup_none {β : Type} (l : List (String × β)) (k : String) (v : β)
    (h : l.lookup k = none) : updateEntry l k v = l ++ [(k, v)] := by
  induction l with
  | nil => rfl
  | cons e es ih =>
    have hne : ¬ (k = e.1) := by
      intro hk
      have hbeq : (k == e.1) = true := by simp [beq_iff_eq, hk]
      simp [List.lookup, hbeq] at h
    have hbeq : (k == e.1) = false := by simp [beq_iff_eq, hne]
    simp only [List.lookup, hbeq] at h
    have hne2 : ¬ (e.1 = k) := fun hh => hne hh.symm
    simp only [updateEntry, if_neg hne2, List.cons_append]
    rw [ih h]

theorem map_fst_updateEntry_of_mem {β : Type} (l : List (String × β)) (k : String) (v : β)
    (h : k ∈ l.map Prod.fst) : (updateEntry l k v).map Prod.fst = l.map Prod.fst := by
  induction l with
  | nil => simp at h
  | cons e es ih =>
    by_cases he : e.1 = k
    · simp [updateEntry, he]
    · simp only [updateEntry, if_neg he, List.map_cons]
      have hmem : k ∈ es.map Prod.fst := by
        rw [List.map_cons] at h
        rcases List.mem_cons.mp h with h1 | h1
        · exact absurd h1.symm he
        · exact h1
      rw [ih hmem]

theorem lookup_of_mem_nodup {β : Type} {l : List (String × β)} {k : String} {v : β}
    (hnodup : (l.map Prod.fst).Nodup) (hmem : (k, v) ∈ l) : l.lookup k = some v := by
  induction l with
  | nil => simp at hmem
  | cons e es ih =>
    rw [List.map_cons, List.nodup_cons] at hnodup
    rcases List.mem_cons.mp hmem with h | h
    · rw [← h]
      simp [List.lookup]
    · by_cases he : k = e.1
      · exfalso
        apply hnodup.1
        rw [← he]
        have : k ∈ (es.map Prod.fst) := by
          have := List.mem_map_of_mem Prod.fst h
          simpa using this
        exact this
      · have hbeq : (k == e.1) = false := by simp [beq_iff_eq, he]
        simp only [List.lookup, hbeq]
        exact ih hnodup.2 h

theorem deleteEntry_of_not_mem {β : Type} (l : List (String × β)) (k : String)
    (h : k ∉ l.map Prod.fst) : deleteEntry l k = l := by
  apply List.filter_eq_self.mpr
  intro e he
  have : e.1 ≠ k := by
    intro hk
    apply h
    rw [← hk]
    simpa using List.mem_map_of_mem Prod.fst he
  simp [this]

theorem map_snd_deleteEntry_perm {β : Type} {l : List (String × β)} {k : String} {v : β}
    (hnodup : (l.map Prod.fst).Nodup) (hlk : l.lookup k = some v) :
    (l.map Prod.snd).Perm (v :: (deleteEntry l k).map Prod.snd) := by
  induction l with
  | nil => simp [List.lookup] at hlk
  | cons e es ih =>
    rw [List.map_cons, List.nodup_cons] at hnodup
    by_cases he : k = e.1
    · have hbeq : (k == e.1) = true := by simp [beq_iff_eq, he]
      simp only [List.lookup, hbeq, Option.some.injEq] at hlk
      have hdel : deleteEntry (e :: es) k = es := by
        have h1 : (e.1 == k) = true := by simp [beq_iff_eq, he]
        simp only [deleteEntry, List.filter, h1, Bool.not_true]
        rw [show List.filter (fun e2 => !(e2.1 == k)) es = deleteEntry es k from rfl]
        apply deleteEntry_of_not_mem
        rw [← he] at hnodup
        exact hnodup.1
      rw [hdel, ← hlk]
      exact List.Perm.refl _
    · have hbeq : (k == e.1) = false := by simp [beq_iff_eq, he]
      simp only [List.lookup, hbeq] at hlk
      have hdel : deleteEntry (e :: es) k = e :: deleteEntry es k := by
        have h1 : (e.1 == k) = false := by
          simp [beq_iff_eq]
          exact fun hh => he hh.symm
        simp [deleteEntry, List.filter, h1]
      rw [hdel, List.map_cons]
      exact ((ih hnodup.2 hlk).cons e.2).trans (List.Perm.swap v e.2 _)

theorem perm_middle_swap {α : Type} (a b x : List α) :
    (a ++ (b ++ x)).Perm (b ++ (a ++ x)) := by
  rw [← List.append_assoc, ← List.append_assoc]
  exact List.perm_append_comm.append_right x

theorem flatten_deleteEntry_perm {l : List (String × List Connection)} {k : String}
    {s : List Connection}
    (hnodup : (l.map Prod.fst).Nodup) (hlk : l.lookup k = some s) :
    ((l.map Prod.snd).flatten).Perm
      (s ++ ((deleteEntry l k).map Prod.snd).flatten) := by
  induction l with
  | nil => simp [List.lookup] at hlk
  | cons e es ih =>
    rw [List.map_cons, List.nodup_cons] at hnodup
    by_cases he : k = e.1
    · have hbeq : (k == e.1) = true := by simp [beq_iff_eq, he]
      simp only [List.lookup, hbeq, Option.some.injEq] at hlk
      have hdel : deleteEntry (e :: es) k = es := by
        have h1 : (e.1 == k) = true := by simp [beq_iff_eq, he]
        simp only [deleteEntry, List.filter, h1, Bool.not_true]
        rw [show List.filter (fun e2 => !(e2.1 == k)) es = deleteEntry es k from rfl]
        apply deleteEntry_of_not_mem
        rw [← he] at hnodup
        exact hnodup.1
      rw [hdel, ← hlk]
      simp
    · have hbeq : (k == e.1) = false := by simp [beq_iff_eq, he]
      simp only [List.lookup, hbeq] at hlk
      have hdel : deleteEntry (e :: es) k = e :: deleteEntry es k := by
        have h1 : (e.1 == k) = false := by
          simp [beq_iff_eq]
          exact fun hh => he hh.symm
        simp [deleteEntry, List.filter, h1]
      rw [hdel, List.map_cons, List.map_cons, List.flatten_cons, List.flatten_cons]
      exact ((ih hnodup.2 hlk).append_left e.2).trans (perm_middle_swap e.2 s _)

theorem flatten_updateEntry_perm {l : List (String × List Connection)} {k : String}
    {s new : List Connection}
    (hnodup : (l.map Prod.fst).Nodup) (hlk : l.lookup k = some s) :
    (((updateEntry l k new).map Prod.snd).flatten).Perm
      (new ++ ((deleteEntry l k).map Prod.snd).flatten) := by
  induction l with
  | nil => simp [List.lookup] at hlk
  | cons e es ih =>
    rw [List.map_cons, List.nodup_cons] at hnodup
    by_cases he : k = e.1
    · have hdel : deleteEntry (e :: es) k = es := by
        have h1 : (e.1 == k) = true := by simp [beq_iff_eq, he]
        simp only [deleteEntry, List.filter, h1, Bool.not_true]
        rw [show List.filter (fun e2 => !(e2.1 == k)) es = deleteEntry es k from rfl]
        apply deleteEntry_of_not_mem
        rw [← he] at hnodup
        exact hnodup.1
      have hupd : updateEntry (e :: es) k new = (k, new) :: es := by
        simp [updateEntry, he.symm]
      rw [hdel, hupd, List.map_cons, List.flatten_cons]
    · have hbeq : (k == e.1) = false := by simp [beq_iff_eq, he]
      simp only [List.lookup, hbeq] at hlk
      have hdel : deleteEntry (e :: es) k = e :: deleteEntry es k := by
        have h1 : (e.1 == k) = false := by
          simp [beq_iff_eq]
          exact fun hh => he hh.symm
        simp [deleteEntry, List.filter, h1]
      have hupd : updateEntry (e :: es) k new = e :: updateEntry es k new := by
        have hne2 : ¬ (e.1 = k) := fun hh => he hh.symm
        simp [updateEntry, hne2]
      rw [hdel, hupd, List.map_cons, List.map_cons, List.flatten_cons, List.flatten_cons]
      exact ((ih hnodup.2 hlk).append_left e.2).trans (perm_middle_swap e.2 new _)

theorem mem_keys_of_lookup {β : Type} {l : List (String × β)} {k : String} {v : β}
    (h : l.lookup k = some v) : k ∈ l.map Prod.fst := by
  have hmem := mem_of_lookup h
  simpa using List.mem_map_of_mem Prod.fst hmem

theorem conn_ids_eq_keys (m : SSEManager) (hinv : SSEInv m) :
    (m.connections.map Prod.snd).map Connection.id = m.connections.map Prod.fst := by
  rw [List.map_map]
  exact List.map_congr_left (fun kv hkv => hinv.connKeys kv hkv)

theorem flatten_ids_nodup (m : SSEManager) (hinv : SSEInv m) :
    ((((m.sessions.map Prod.snd).flatten).map Connection.id)).Nodup := by
  have hperm := hinv.flatPerm.map Connection.id
  rw [conn_ids_eq_keys m hinv] at hperm
  exact hperm.nodup_iff.mpr hinv.connNodup

theorem conn_records_nodup (m : SSEManager) (hinv : SSEInv m) :
    (m.connections.map Prod.snd).Nodup := by
  apply List.Nodup.of_map Connection.id
  rw [conn_ids_eq_keys m hinv]
  exact hinv.connNodup

theorem slice_ids_nodup (m : SSEManager) (hinv : SSEInv m) {k : String}
    {s : List Connection} (hmem : (k, s) ∈ m.sessions) :
    (s.map Connection.id).Nodup := by
  have hsub : s.Sublist ((m.sessions.map Prod.snd).flatten) := by
    apply List.sublist_join_of_mem
    simpa using List.mem_map_of_mem Prod.snd hmem
  exact (flatten_ids_nodup m hinv).sublist (hsub.map Connection.id)

theorem mem_slice_of_lookup (m : SSEManager) (hinv : SSEInv m) {cid : String}
    {conn : Connection} (h : m.connections.lookup cid = some conn) :
    ∃ s, m.sessions.lookup conn.sessionID = some s ∧ conn ∈ s := by
  have hmem : conn ∈ m.connections.map Prod.snd := by
    simpa using List.mem_map_of_mem Prod.snd (mem_of_lookup h)
  have hflat : conn ∈ (m.sessions.map Prod.snd).flatten :=
    hinv.flatPerm.mem_iff.mpr hmem
  obtain ⟨slice, hslice, hconnslice⟩ := List.mem_flatten.mp hflat
  obtain ⟨kv, hkv, hkveq⟩ := List.mem_map.mp hslice
  have hsid : conn.sessionID = kv.1 :=
    hinv.sliceSess kv hkv conn (by rw [hkveq]; exact hconnslice)
  refine ⟨slice, ?_, hconnslice⟩
  rw [hsid]
  have hmem2 : (kv.1, slice) ∈ m.sessions := by
    have h2 : (kv.1, kv.2) ∈ m.sessions := by simpa using hkv
    rwa [hkveq] at h2
  exact lookup_of_mem_nodup hinv.sessNodup hmem2

theorem removeFirstByID_perm (conns : List Connection) (cid : String) (c : Connection)
    (hc : c ∈ conns) (hid : c.id = cid)
    (huniq : (conns.map Connection.id).Nodup) :
    conns.Perm (c :: removeFirstByID conns cid) := by
  induction conns with
  | nil => simp at hc
  | cons c0 rest ih =>
    rw [List.map_cons, List.nodup_cons] at huniq
    by_cases h0 : c0.id = cid
    · have hceq : c = c0 := by
        rcases List.mem_cons.mp hc with h | h
        · exact h
        · exfalso
          apply huniq.1
          rw [h0, ← hid]
          exact List.mem_map_of_mem Connection.id h
      unfold removeFirstByID
      rw [if_pos h0, hceq]
    · have hcrest : c ∈ rest := by
        rcases List.mem_cons.mp hc with h | h
        · exact absurd (by rw [← h]; exact hid) h0
        · exact h
      unfold removeFirstByID
      rw [if_neg h0]
      exact ((ih hcrest huniq.2).cons c0).trans (List.Perm.swap c c0 _)

theorem addConnection_inv (m : SSEManager) (conn : Connection)
    (hinv : SSEInv m) (hfresh : m.connections.lookup conn.id = none) :
    SSEInv (m.addConnection conn) := by
  have hknot : conn.id ∉ m.connections.map Prod.fst := (lookup_eq_none_iff _ _).mp hfresh
  have hconnupd : updateEntry m.connections conn.id conn
      = m.connections ++ [(conn.id, conn)] :=
    updateEntry_of_lookup_none _ _ _ hfresh
  constructor
  · intro kv hkv
    rcases mem_updateEntry hkv with h | h
    · rw [h]
    · exact hinv.connKeys kv h
  · show ((updateEntry m.connections conn.id conn).map Prod.fst).Nodup
    rw [hconnupd, List.map_append, List.nodup_append]
    refine ⟨hinv.connNodup, List.nodup_singleton _, ?_⟩
    intro x hx hx2
    simp only [List.map_cons, List.map_nil, List.mem_singleton] at hx2
    exact hknot (hx2 ▸ hx)
  · show ((updateEntry m.sessions conn.sessionID _).map Prod.fst).Nodup
    cases hs : m.sessions.lookup conn.sessionID with
    | some s =>
      rw [map_fst_updateEntry_of_mem _ _ _ (mem_keys_of_lookup hs)]
      exact hinv.sessNodup
    | none =>
      rw [updateEntry_of_lookup_none _ _ _ hs, List.map_append, List.nodup_append]
      refine ⟨hinv.sessNodup, List.nodup_singleton _, ?_⟩
      intro x hx hx2
      simp only [List.map_cons, List.map_nil, List.mem_singleton] at hx2
      exact ((lookup_eq_none_iff _ _).mp hs) (hx2 ▸ hx)
  · intro kv hkv
    rcases mem_updateEntry hkv with h | h
    · rw [h]
      simp
    · exact hinv.sliceNE kv h
  · intro kv hkv c hc
    rcases mem_updateEntry hkv with h | h
    · rw [h] at hc ⊢
      simp only at hc ⊢
      rcases List.mem_append.mp hc with h1 | h1
      · cases hs : m.sessions.lookup conn.sessionID with
        | none => rw [hs] at h1; simp at h1
        | some s =>
          rw [hs] at h1
          simp only [Option.getD_some] at h1
          exact hinv.sliceSess (conn.sessionID, s) (mem_of_lookup hs) c h1
      · simp only [List.mem_singleton] at h1
        rw [h1]
    · exact hinv.sliceSess kv h c hc
  · show (((updateEntry m.sessions conn.sessionID
      ((m.sessions.lookup conn.sessionID).getD [] ++ [conn])).map Prod.snd).flatten).Perm
      ((updateEntry m.connections conn.id conn).map Prod.snd)
    rw [hconnupd, List.map_append]
    simp only [List.map_cons, List.map_nil]
    cases hs : m.sessions.lookup conn.sessionID with
    | none =>
      simp only [Option.getD_none, List.nil_append]
      rw [updateEntry_of_lookup_none _ _ _ hs, List.map_append, List.flatten_append]
      simp only [List.map_cons, List.map_nil, List.flatten_cons, List.flatten_nil,
        List.append_nil]
      exact hinv.flatPerm.append (List.Perm.refl [conn])
    | some s =>
      simp only [Option.getD_some]
      refine (flatten_updateEntry_perm hinv.sessNodup hs).trans ?_
      have h2 := flatten_deleteEntry_perm hinv.sessNodup hs
      have h3 : ((s ++ [conn]) ++
          ((deleteEntry m.sessions conn.sessionID).map Prod.snd).flatten).Perm
          ((s ++ ((deleteEntry m.sessions conn.sessionID).map Prod.snd).flatten)
            ++ [conn]) := by
        rw [List.append_assoc, List.append_assoc]
        exact List.Perm.append_left s List.perm_append_comm
      exact h3.trans ((h2.symm.append_right [conn]).trans
        (hinv.flatPerm.append_right [conn]))

theorem removeConnection_inv (m : SSEManager) (cid : String) (hinv : SSEInv m) :
    SSEInv (m.removeConnection cid) := by
  unfold SSEManager.removeConnection
  cases hc : m.connections.lookup cid with
  | none => exact hinv
  | some conn =>
    obtain ⟨s, hs, hconns⟩ := mem_slice_of_lookup m hinv hc
    dsimp only
    rw [hs]
    dsimp only
    have hkeq : conn.id = cid := hinv.connKeys (cid, conn) (mem_of_lookup hc)
    have hsliceuniq : (s.map Connection.id).Nodup :=
      slice_ids_nodup m hinv (mem_of_lookup hs)
    have hpermslice : s.Perm (conn :: removeFirstByID s cid) :=
      removeFirstByID_perm s cid conn hconns hkeq hsliceuniq
    have hdelconnperm : (m.connections.map Prod.snd).Perm
        (conn :: (deleteEntry m.connections cid).map Prod.snd) :=
      map_snd_deleteEntry_perm hinv.connNodup hc
    have hflatdel : ((m.sessions.map Prod.snd).flatten).Perm
        (s ++ ((deleteEntry m.sessions conn.sessionID).map Prod.snd).flatten) :=
      flatten_deleteEntry_perm hinv.sessNodup hs
    have hconnkeys : ∀ kv ∈ deleteEntry m.connections cid, kv.2.id = kv.1 :=
      fun kv hkv => hinv.connKeys kv (List.mem_of_mem_filter hkv)
    have hconnnodup : ((deleteEntry m.connections cid).map Prod.fst).Nodup :=
      List.Nodup.sublist ((List.filter_sublist _).map Prod.fst) hinv.connNodup
    by_cases hlen : (removeFirstByID s cid).length = 0
    · rw [if_pos hlen]
      have hempty : removeFirstByID s cid = [] := List.length_eq_zero.mp hlen
      constructor
      · exact hconnkeys
      · exact hconnnodup
      · exact List.Nodup.sublist ((List.filter_sublist _).map Prod.fst) hinv.sessNodup
      · exact fun kv hkv => hinv.sliceNE kv (List.mem_of_mem_filter hkv)
      · exact fun kv hkv => hinv.sliceSess kv (List.mem_of_mem_filter hkv)
      · rw [hempty] at hpermslice
        have h1 : ((m.sessions.map Prod.snd).flatten).Perm
            (conn :: ((deleteEntry m.sessions conn.sessionID).map Prod.snd).flatten) :=
          hflatdel.trans (hpermslice.append_right _)
        have h2 := hinv.flatPerm.trans hdelconnperm
        exact (h1.symm.trans h2).cons_inv
    · rw [if_neg hlen]
      constructor
      · exact hconnkeys
      · exact hconnnodup
      · rw [map_fst_updateEntry_of_mem _ _ _ (mem_keys_of_lookup hs)]
        exact hinv.sessNodup
      · intro kv hkv
        rcases mem_updateEntry hkv with h | h
        · rw [h]
          simp only
          intro hnil
          exact hlen (by rw [hnil]; rfl)
        · exact hinv.sliceNE kv h
      · intro kv hkv c hcc
        rcases mem_updateEntry hkv with h | h
        · rw [h] at hcc ⊢
          simp only at hcc ⊢
          have hcs : c ∈ s := hpermslice.mem_iff.mpr (List.mem_cons_of_mem conn hcc)
          exact hinv.sliceSess (conn.sessionID, s) (mem_of_lookup hs) c hcs
        · exact hinv.sliceSess kv h c hcc
      · refine (flatten_updateEntry_perm hinv.sessNodup hs).trans ?_
        have hchain : (conn :: (removeFirstByID s cid ++
            ((deleteEntry m.sessions conn.sessionID).map Prod.snd).flatten)).Perm
            (conn :: (deleteEntry m.connections cid).map Prod.snd) := by
          rw [show conn :: (removeFirstByID s cid ++
              ((deleteEntry m.sessions conn.sessionID).map Prod.snd).flatten)
            = (conn :: removeFirstByID s cid) ++
              ((deleteEntry m.sessions conn.sessionID).map Prod.snd).flatten from rfl]
          exact (hpermslice.symm.append_right _).trans
            (hflatdel.symm.trans (hinv.flatPerm.trans hdelconnperm))
        exact hchain.cons_inv

theorem reachable_inv : ∀ m, SSEReachable m → SSEInv m := by
  intro m h
  induction h with
  | empty =>
    refine ⟨?_, ?_, ?_, ?_, ?_, ?_⟩ <;> simp [SSEManager.new]
  | add conn _ hfresh ih => exact addConnection_inv _ conn ih hfresh
  | remove cid _ ih => exact removeConnection_inv _ cid ih

/-- C10: in every SSE-manager state reachable by `AddConnection` (with fresh
UUIDs) and `RemoveConnection`, the two indices agree: a looked-up connection
occurs exactly once in its session's slice; every slice member is registered
under its id and carries the slice's session id; no session maps to an empty
slice; `GetConnectionCount` is the sum of the per-session slice lengths;
`GetSessionCount` counts exactly the sessions with a live connection;
`HasActiveConnections s` holds iff some registered connection has session `s`;
and `RemoveConnection` of an unknown id is the identity. -/
theorem sse_indices_agree (m : SSEManager) (hreach : SSEReachable m) :
    (∀ cid conn, m.connections.lookup cid = some conn →
      ((m.sessions.lookup conn.sessionID).getD []).count conn = 1) ∧
    (∀ sid slice conn, m.sessions.lookup sid = some slice → conn ∈ slice →
      m.connections.lookup conn.id = some conn ∧ conn.sessionID = sid) ∧
    (∀ sid slice, m.sessions.lookup sid = some slice → slice ≠ []) ∧
    m.getConnectionCount = (m.sessions.map (fun kv => kv.2.length)).sum ∧
    m.getSessionCount = (m.sessions.filter (fun kv => !kv.2.isEmpty)).length ∧
    (∀ s, m.hasActiveConnections s = true ↔
      ∃ cid conn, m.connections.lookup cid = some conn ∧ conn.sessionID = s) ∧
    (∀ cid, m.connections.lookup cid = none → m.removeConnection cid = m) := by
  have hinv := reachable_inv m hreach
  have hpart2 : ∀ sid slice conn, m.sessions.lookup sid = some slice → conn ∈ slice →
      m.connections.lookup conn.id = some conn ∧ conn.sessionID = sid := by
    intro sid slice conn hlk hc
    have hkv := mem_of_lookup hlk
    have hsid : conn.sessionID = sid := hinv.sliceSess (sid, slice) hkv conn hc
    refine ⟨?_, hsid⟩
    have hflat : conn ∈ (m.sessions.map Prod.snd).flatten := by
      apply List.mem_flatten.mpr
      exact ⟨slice, by simpa using List.mem_map_of_mem Prod.snd hkv, hc⟩
    have hmemconn : conn ∈ m.connections.map Prod.snd := hinv.flatPerm.mem_iff.mp hflat
    obtain ⟨kv, hkv2, hkveq⟩ := List.mem_map.mp hmemconn
    have hid : kv.1 = conn.id := by
      have h0 := hinv.connKeys kv hkv2
      rw [hkveq] at h0
      exact h0.symm
    have hmem3 : (conn.id, conn) ∈ m.connections := by
      have h2 : (kv.1, kv.2) ∈ m.connections := by simpa using hkv2
      rw [hid, hkveq] at h2
      exact h2
    exact lookup_of_mem_nodup hinv.connNodup hmem3
  refine ⟨?_, hpart2, ?_, ?_, ?_, ?_, ?_⟩
  · intro cid conn h
    obtain ⟨s, hs, hconns⟩ := mem_slice_of_lookup m hinv h
    rw [hs]
    simp only [Option.getD_some]
    apply List.count_eq_one_of_mem
    · exact List.Nodup.of_map Connection.id (slice_ids_nodup m hinv (mem_of_lookup hs))
    · exact hconns
  · exact fun sid slice hlk => hinv.sliceNE (sid, slice) (mem_of_lookup hlk)
  · show m.connections.length = (m.sessions.map (fun kv => kv.2.length)).sum
    have h1 := hinv.flatPerm.length_eq
    rw [List.length_flatten, List.length_map, List.map_map] at h1
    exact h1.symm
  · show m.sessions.length = (m.sessions.filter (fun kv => !kv.2.isEmpty)).length
    have hfd : m.sessions.filter (fun kv => !kv.2.isEmpty) = m.sessions := by
      apply List.filter_eq_self.mpr
      intro kv hkv
      have hne := hinv.sliceNE kv hkv
      simp [List.isEmpty_iff, hne]
    rw [hfd]
  · intro s
    constructor
    · intro hact
      unfold SSEManager.hasActiveConnections at hact
      rw [decide_eq_true_eq] at hact
      cases hs : m.sessions.lookup s with
      | none => rw [hs] at hact; simp at hact
      | some slice =>
        rw [hs] at hact
        simp only [Option.getD_some] at hact
        have hne : slice ≠ [] := by
          intro h0
          rw [h0] at hact
          simp at hact
        obtain ⟨c, hcmem⟩ := List.exists_mem_of_ne_nil slice hne
        obtain ⟨hreg, hsid⟩ := hpart2 s slice c hs hcmem
        exact ⟨c.id, c, hreg, hsid⟩
    · rintro ⟨cid, conn, hlk, hsid⟩
      obtain ⟨slice, hs, hmem⟩ := mem_slice_of_lookup m hinv hlk
      unfold SSEManager.hasActiveConnections
      rw [hsid] at hs
      rw [hs]
      simp only [Option.getD_some]
      rw [decide_eq_true_eq]
      apply List.length_pos.mpr
      intro h0
      rw [h0] at hmem
      simp at hmem
  · intro cid hnone
    unfold SSEManager.removeConnection
    rw [hnone]

/-- C10 witness: the index agreement applied to the state reached by adding
one connection to the fresh SSE manager. -/
theorem sse_indices_agree_witness :
    (SSEManager.new.addConnection (sampleConn "c1" "s1")).getConnectionCount
      = ((SSEManager.new.addConnection (sampleConn "c1" "s1")).sessions.map
          (fun kv => kv.2.length)).sum ∧
    (SSEManager.new.addConnection (sampleConn "c1" "s1")).hasActiveConnections "s1"
      = true := by
  have h := sse_indices_agree (SSEManager.new.addConnection (sampleConn "c1" "s1"))
    (SSEReachable.add (sampleConn "c1" "s1") SSEReachable.empty (by rfl))
  refine ⟨h.2.2.2.1, ?_⟩
  exact (h.2.2.2.2.2.1 "s1").mpr ⟨"c1", sampleConn "c1" "s1", by rfl, by rfl⟩

end Chat
